import Mathlib

/-!
Verification development for the goback backup tool.

The development shallowly embeds the retention engine
(`retention/policy.go`), the directory-copy exclusion matcher
(`backup/directory.go`), the backup pipeline executor and the run
orchestrator (`backup/executor.go` / `main.go`) and proves the
documented properties of these components.

Timestamps: all archive timestamps are produced by parsing a filename,
hence they all carry the same time zone (`time.Location`).  Every
operation of the source (`time.Date(..., t.Location())`, `Before`,
`After`) stays inside that single zone, so the embedding models a
`time.Time` as a plain wall-clock record without a zone field.
-/

namespace Goback

/-- Leap year test of the proleptic Gregorian calendar, as used by Go's
`time` package. -/
def isLeap (y : Nat) : Bool := y % 4 == 0 && (y % 100 != 0 || y % 400 == 0)

/-- Number of days in month `m` (1..12) of year `y`. -/
def daysInMonth (y m : Nat) : Nat :=
  if m = 2 then (if isLeap y then 29 else 28)
  else if m = 4 ∨ m = 6 ∨ m = 9 ∨ m = 11 then 30
  else 31

/-- Cumulative number of days before month `m` in a non-leap year. -/
def daysBeforeMonth (m : Nat) : Nat :=
  if m = 1 then 0 else if m = 2 then 31 else if m = 3 then 59 else if m = 4 then 90
  else if m = 5 then 120 else if m = 6 then 151 else if m = 7 then 181 else if m = 8 then 212
  else if m = 9 then 243 else if m = 10 then 273 else if m = 11 then 304 else 334

/-- Day number of the civil date `(y, m, d)`: the number of days elapsed
since January 1 of year 1 (proleptic Gregorian), the linearization Go's
`time` package uses internally for calendar computations. -/
def dayNumber (y m d : Nat) : Nat :=
  365 * (y - 1) + (y - 1) / 4 - (y - 1) / 100 + (y - 1) / 400
    + daysBeforeMonth m + (if 3 ≤ m ∧ isLeap y = true then 1 else 0) + (d - 1)

/-- Wall-clock time in the (single) time zone of the backup archives;
the model of Go's `time.Time` restricted to the fields the retention
code observes. -/
structure GoTime where
  year : Nat
  month : Nat
  day : Nat
  hour : Nat
  minute : Nat
  second : Nat
deriving DecidableEq, Repr

/-- A `GoTime` denotes an actual calendar time (year ≥ 1, valid month,
day, clock fields).  Timestamps parsed from real archive filenames
always satisfy this. -/
def GoTime.ValidT (t : GoTime) : Prop :=
  1 ≤ t.year ∧ 1 ≤ t.month ∧ t.month ≤ 12 ∧ 1 ≤ t.day ∧ t.day ≤ daysInMonth t.year t.month ∧
    t.hour < 24 ∧ t.minute < 60 ∧ t.second < 60

instance (t : GoTime) : Decidable t.ValidT := by
  unfold GoTime.ValidT; infer_instance

/-- Day number of a `GoTime`'s calendar date. -/
def GoTime.dayNum (t : GoTime) : Nat := dayNumber t.year t.month t.day

/-- Go's `t.Weekday()` for this calendar: `0` = Sunday, `1` = Monday, ...
January 1 of year 1 is a Monday in the proleptic Gregorian calendar. -/
def GoTime.weekdayN (t : GoTime) : Nat := (t.dayNum + 1) % 7

/-- `time.Date(t.Year(), t.Month(), t.Day(), 0, 0, 0, 0, t.Location())`:
midnight of `t`'s calendar day.  This is the daily period-start function
of `determineFilesToKeep`. -/
def dailyStart (t : GoTime) : GoTime :=
  { year := t.year, month := t.month, day := t.day, hour := 0, minute := 0, second := 0 }

/-- `time.Date(t.Year(), t.Month(), 1, 0, 0, 0, 0, t.Location())`: the
monthly period-start function of `determineFilesToKeep`. -/
def monthlyStart (t : GoTime) : GoTime :=
  { year := t.year, month := t.month, day := 1, hour := 0, minute := 0, second := 0 }

/-- `time.Date(t.Year(), 1, 1, 0, 0, 0, 0, t.Location())`: the yearly
period-start function of `determineFilesToKeep`. -/
def yearlyStart (t : GoTime) : GoTime :=
  { year := t.year, month := 1, day := 1, hour := 0, minute := 0, second := 0 }

/-- Go's `t.AddDate(0, 0, -1)` on a valid time: the previous calendar
day (Go normalizes day 0 to the last day of the previous month and
month 0 to December of the previous year), keeping the clock fields. -/
def prevDay (t : GoTime) : GoTime :=
  if 2 ≤ t.day then { t with day := t.day - 1 }
  else if 2 ≤ t.month then
    { t with month := t.month - 1, day := daysInMonth t.year (t.month - 1) }
  else
    { t with year := t.year - 1, month := 12, day := 31 }

/-- The `for weekStart.Weekday() != time.Monday` search loop of the
weekly period-start function, fuelled.  The loop steps back one day at
a time; seven steps of fuel always suffice (proved below), so the
fuelled function agrees with Go's unbounded loop on valid times. -/
def weeklyLoop : Nat → GoTime → GoTime
  | 0, t => t
  | n + 1, t => if t.weekdayN = 1 then t else weeklyLoop n (prevDay t)

/-- The weekly period-start function of `determineFilesToKeep`:
midnight of the Monday on or before `t`. -/
def weeklyStart (t : GoTime) : GoTime := dailyStart (weeklyLoop 7 t)

/-! ### Calendar lemmas -/

theorem daysInMonth_pos (y m : Nat) : 1 ≤ daysInMonth y m := by
  unfold daysInMonth; split
  · split <;> omega
  · split <;> omega

theorem daysInMonth_dec12 (y : Nat) : daysInMonth y 12 = 31 := by
  simp [daysInMonth]

theorem daysBeforeMonth_ge31 {m : Nat} (h2 : 2 ≤ m) (h12 : m ≤ 12) :
    31 ≤ daysBeforeMonth m := by
  interval_cases m <;> decide

theorem prevDay_valid {t : GoTime} (h : t.ValidT) (h0 : ¬ (t.year = 1 ∧ t.month = 1 ∧ t.day = 1)) :
    (prevDay t).ValidT := by
  obtain ⟨y, m, d, hh, mi, se⟩ := t
  obtain ⟨h1, h2, h3, h4, h5, h6, h7, h8⟩ := h
  simp only at *
  unfold prevDay
  split
  next hd =>
    exact ⟨h1, h2, h3, by simp only at *; omega, by simp only; omega, h6, h7, h8⟩
  next hd =>
    split
    next hm =>
      refine ⟨h1, by simp only at *; omega, by simp only; omega, ?_, ?_, h6, h7, h8⟩
      · exact daysInMonth_pos _ _
      · exact le_refl _
    next hm =>
      refine ⟨by simp only at *; omega, by simp only; omega, by simp only; omega,
        by simp only; omega, ?_, h6, h7, h8⟩
      show (31 : Nat) ≤ daysInMonth (y - 1) 12
      rw [daysInMonth_dec12]

theorem prevDay_clock (t : GoTime) :
    (prevDay t).hour = t.hour ∧ (prevDay t).minute = t.minute ∧ (prevDay t).second = t.second := by
  unfold prevDay
  split
  · exact ⟨rfl, rfl, rfl⟩
  · split
    · exact ⟨rfl, rfl, rfl⟩
    · exact ⟨rfl, rfl, rfl⟩

theorem dayNum_eq_zero_iff {t : GoTime} (h : t.ValidT) :
    t.dayNum = 0 ↔ t.year = 1 ∧ t.month = 1 ∧ t.day = 1 := by
  obtain ⟨y, m, d, hh, mi, se⟩ := t
  obtain ⟨h1, h2, h3, h4, h5, h6, h7, h8⟩ := h
  simp only at *
  unfold GoTime.dayNum dayNumber
  simp only
  constructor
  · intro he
    have hy : y = 1 := by
      by_contra hc
      have hy2 : 2 ≤ y := by omega
      have : 365 ≤ 365 * (y - 1) := by omega
      omega
    subst hy
    have hm : m = 1 := by
      by_contra hc
      have := daysBeforeMonth_ge31 (by omega : 2 ≤ m) h3
      omega
    subst hm
    simp [daysBeforeMonth] at he
    omega
  · rintro ⟨hy, hm, hd⟩
    subst hy; subst hm; subst hd
    simp [daysBeforeMonth, isLeap]

theorem dayNumber_month_boundary {y m : Nat} (h2 : 2 ≤ m) (h12 : m ≤ 12) :
    dayNumber y (m - 1) (daysInMonth y (m - 1)) + 1 = dayNumber y m 1 := by
  unfold dayNumber daysInMonth daysBeforeMonth
  rcases hL : isLeap y <;>
    interval_cases m <;> simp [hL] <;> simp [isLeap] at hL <;> omega

set_option maxHeartbeats 4000000 in
theorem dayNumber_year_boundary {y : Nat} (h2 : 2 ≤ y) :
    dayNumber (y - 1) 12 31 + 1 = dayNumber y 1 1 := by
  unfold dayNumber
  rw [show daysBeforeMonth 12 = 334 from rfl, show daysBeforeMonth 1 = 0 from rfl]
  rw [if_neg (by rintro ⟨h3, _⟩; omega : ¬(3 ≤ 1 ∧ isLeap y = true))]
  by_cases hp : isLeap (y - 1) = true
  · rw [if_pos ⟨by omega, hp⟩]
    simp [isLeap] at hp
    omega
  · rw [if_neg (fun hc => hp hc.2)]
    simp [isLeap] at hp
    omega

theorem dayNum_prevDay {t : GoTime} (h : t.ValidT) (h0 : ¬ (t.year = 1 ∧ t.month = 1 ∧ t.day = 1)) :
    (prevDay t).dayNum = t.dayNum - 1 ∧ 1 ≤ t.dayNum := by
  have hpos : 1 ≤ t.dayNum := by
    rcases Nat.eq_zero_or_pos t.dayNum with hz | hp
    · exact absurd ((dayNum_eq_zero_iff h).mp hz) h0
    · exact hp
  refine ⟨?_, hpos⟩
  obtain ⟨y, m, d, hh, mi, se⟩ := t
  obtain ⟨h1, h2, h3, h4, h5, h6, h7, h8⟩ := h
  simp only at *
  unfold prevDay
  split
  next hd =>
    simp only at hd
    unfold GoTime.dayNum dayNumber
    simp only
    omega
  next hd =>
    simp only at hd
    split
    next hm =>
      -- month boundary: day 1 of month m ≥ 2 steps to the last day of month m - 1
      simp only at hm
      have hd1 : d = 1 := by omega
      subst hd1
      show dayNumber y (m - 1) (daysInMonth y (m - 1)) = dayNumber y m 1 - 1
      have := dayNumber_month_boundary (y := y) hm h3
      omega
    next hm =>
      -- year boundary: January 1 of year y ≥ 2 steps to December 31 of year y - 1
      simp only at hm
      have hm1 : m = 1 := by omega
      have hd1 : d = 1 := by omega
      subst hm1; subst hd1
      have hy2 : 2 ≤ y := by
        rcases Nat.lt_or_ge y 2 with hy | hy
        · exact absurd ⟨by omega, rfl, rfl⟩ h0
        · exact hy
      show dayNumber (y - 1) 12 31 = dayNumber y 1 1 - 1
      have := dayNumber_year_boundary hy2
      omega

/-- Each backward day-step decrements the weekday by one (mod 7). -/
theorem weekdayN_prevDay {t : GoTime} (h : t.ValidT)
    (h0 : ¬ (t.year = 1 ∧ t.month = 1 ∧ t.day = 1)) :
    (prevDay t).weekdayN = (t.weekdayN + 6) % 7 := by
  obtain ⟨hdn, hpos⟩ := dayNum_prevDay h h0
  unfold GoTime.weekdayN
  rw [hdn]
  omega

/-- The backward day-by-day search of the weekly period-start function
reaches the Monday on or before `t` whenever it is given more fuel than
the weekday distance to Monday; in particular it terminates.  The
result keeps `t`'s clock fields and its day number is `t`'s day number
rounded down to a multiple of 7 (day number 0, January 1 of year 1, is
a Monday). -/
theorem weeklyLoop_finds_monday {t : GoTime} (h : t.ValidT) {n : Nat}
    (hn : t.dayNum % 7 < n) :
    (weeklyLoop n t).ValidT ∧ (weeklyLoop n t).dayNum = t.dayNum - t.dayNum % 7 ∧
      (weeklyLoop n t).hour = t.hour ∧ (weeklyLoop n t).minute = t.minute ∧
      (weeklyLoop n t).second = t.second := by
  induction n generalizing t with
  | zero => omega
  | succ n ih =>
    unfold weeklyLoop
    by_cases hw : t.weekdayN = 1
    · rw [if_pos hw]
      unfold GoTime.weekdayN at hw
      exact ⟨h, by omega, rfl, rfl, rfl⟩
    · rw [if_neg hw]
      unfold GoTime.weekdayN at hw
      have hne : ¬ (t.year = 1 ∧ t.month = 1 ∧ t.day = 1) := by
        intro hc
        have h0 : t.dayNum = 0 := (dayNum_eq_zero_iff h).mpr hc
        omega
      obtain ⟨hdn, hpos⟩ := dayNum_prevDay h hne
      have hv' := prevDay_valid h hne
      have hck := prevDay_clock t
      have ih' := ih hv' (by omega)
      obtain ⟨iv, idn, ihh, imi, ise⟩ := ih'
      refine ⟨iv, by omega, ?_, ?_, ?_⟩
      · rw [ihh, hck.1]
      · rw [imi, hck.2.1]
      · rw [ise, hck.2.2]

theorem dailyStart_dayNum (t : GoTime) : (dailyStart t).dayNum = t.dayNum := rfl

theorem dailyStart_valid {t : GoTime} (h : t.ValidT) : (dailyStart t).ValidT := by
  obtain ⟨h1, h2, h3, h4, h5, h6, h7, h8⟩ := h
  exact ⟨h1, h2, h3, h4, h5, by norm_num [dailyStart], by norm_num [dailyStart],
    by norm_num [dailyStart]⟩

/--
C2: the four period-start functions used for bucketing return, for every
valid archive timestamp `t` (in `t`'s single time zone, see the module
comment): daily — midnight of `t`'s calendar day; monthly — midnight of
the 1st of `t`'s month; yearly — midnight of January 1 of `t`'s year;
weekly — the day-by-day backward search terminates (seven fuel steps
are never exhausted: the result really is a Monday) and yields midnight
of the Monday on or before `t`: a valid time with weekday Monday, with
day number `t.dayNum - t.dayNum % 7`, hence not after `t` and fewer
than 7 days before it.
-/
theorem periodStart_correct (t : GoTime) (h : t.ValidT) :
    dailyStart t = { year := t.year, month := t.month, day := t.day, hour := 0, minute := 0, second := 0 } ∧
    monthlyStart t = { year := t.year, month := t.month, day := 1, hour := 0, minute := 0, second := 0 } ∧
    yearlyStart t = { year := t.year, month := 1, day := 1, hour := 0, minute := 0, second := 0 } ∧
    (weeklyStart t).ValidT ∧
    (weeklyStart t).weekdayN = 1 ∧
    (weeklyStart t).hour = 0 ∧ (weeklyStart t).minute = 0 ∧ (weeklyStart t).second = 0 ∧
    (weeklyStart t).dayNum = t.dayNum - t.dayNum % 7 ∧
    (weeklyStart t).dayNum ≤ t.dayNum ∧ t.dayNum - (weeklyStart t).dayNum < 7 := by
  obtain ⟨hv, hdn, hh, hm, hs⟩ := weeklyLoop_finds_monday h (by omega : t.dayNum % 7 < 7)
  have hwd : (weeklyStart t).dayNum = t.dayNum - t.dayNum % 7 := by
    unfold weeklyStart
    rw [dailyStart_dayNum]
    exact hdn
  refine ⟨rfl, rfl, rfl, dailyStart_valid hv, ?_, rfl, rfl, rfl, hwd, by omega, by omega⟩
  unfold GoTime.weekdayN
  rw [hwd]
  omega

/-- Witness for `periodStart_correct` at the concrete timestamp
2024-03-15 13:45:22 (a Friday; the Monday of that week is 2024-03-11). -/
theorem periodStart_correct_witness :
    GoTime.ValidT ⟨2024, 3, 15, 13, 45, 22⟩ ∧
      (weeklyStart ⟨2024, 3, 15, 13, 45, 22⟩).weekdayN = 1 :=
  ⟨by decide, ((periodStart_correct ⟨2024, 3, 15, 13, 45, 22⟩ (by decide)).2.2.2.2).1⟩

/-! ### The retention engine (`retention/policy.go`) -/

/-- Order-embedding of valid wall-clock times into `Nat`.  For valid
times in a single zone, Go's instant comparison `t.Before(u)` coincides
with lexicographic comparison of the calendar fields, which this
packing realizes (the factors strictly bound each field's range). -/
def tcode (t : GoTime) : Nat :=
  ((((t.year * 13 + t.month) * 32 + t.day) * 24 + t.hour) * 60 + t.minute) * 60 + t.second

theorem tcode_inj {a b : GoTime} (ha : a.ValidT) (hb : b.ValidT)
    (h : tcode a = tcode b) : a = b := by
  obtain ⟨y1, m1, d1, hh1, mi1, se1⟩ := a
  obtain ⟨y2, m2, d2, hh2, mi2, se2⟩ := b
  obtain ⟨a1, a2, a3, a4, a5, a6, a7, a8⟩ := ha
  obtain ⟨b1, b2, b3, b4, b5, b6, b7, b8⟩ := hb
  simp only at *
  unfold tcode at h
  simp only at h
  have hm1 : m1 ≤ 12 := a3
  have hm2 : m2 ≤ 12 := b3
  have hd1 : d1 ≤ 31 := by
    have : daysInMonth y1 m1 ≤ 31 := by unfold daysInMonth; split <;> [split; split] <;> omega
    omega
  have hd2 : d2 ≤ 31 := by
    have : daysInMonth y2 m2 ≤ 31 := by unfold daysInMonth; split <;> [split; split] <;> omega
    omega
  have : y1 = y2 ∧ m1 = m2 ∧ d1 = d2 ∧ hh1 = hh2 ∧ mi1 = mi2 ∧ se1 = se2 := by omega
  obtain ⟨e1, e2, e3, e4, e5, e6⟩ := this
  subst e1; subst e2; subst e3; subst e4; subst e5; subst e6
  rfl

/-- `a.Before(b)` of Go's `time` package, on the single-zone wall-clock
model. -/
def timeBeforeB (a b : GoTime) : Bool := tcode a < tcode b

/-- The `BackupFile` struct of `retention/policy.go`. -/
structure BackupFile where
  path : String
  time : GoTime
deriving DecidableEq, Repr

/-- The `RetentionPolicy` struct: four Go `int` counters. -/
structure RetentionPolicy where
  daily : Int
  weekly : Int
  monthly : Int
  yearly : Int
deriving DecidableEq, Repr

/-- Distinct-timestamps relation used for the pairwise hypotheses. -/
def timeNe (a b : BackupFile) : Prop := a.time ≠ b.time

/-- Distinct-paths relation used for the pairwise hypotheses. -/
def pathNe (a b : BackupFile) : Prop := a.path ≠ b.path

instance : DecidableRel timeNe := fun a b => by unfold timeNe; infer_instance

instance : DecidableRel pathNe := fun a b => by unfold pathNe; infer_instance

/-- Comparator-induced order of Go's `sort.Slice(files, less)` with
`less i j = files[i].Time.Before(files[j].Time)`. -/
def timeLe (a b : BackupFile) : Prop := tcode a.time ≤ tcode b.time

instance : DecidableRel timeLe := fun a b => Nat.decLe _ _

instance : IsTotal BackupFile timeLe := ⟨fun a b => Nat.le_total _ _⟩

instance : IsTrans BackupFile timeLe := ⟨fun _ _ _ => Nat.le_trans⟩

/-- Model of `sort.Slice(files, func(i, j) { return files[i].Time.Before(files[j].Time) })`.
Go guarantees only that the result is a permutation of the input that
is non-decreasing under the comparator; insertion sort realizes that
contract. -/
def sortByTime (l : List BackupFile) : List BackupFile := List.insertionSort timeLe l

/-- Association-list model of a Go `map`: in-place update of an
existing key, append of a fresh one. -/
def updA {K V : Type} [DecidableEq K] (k : K) (v : V) : List (K × V) → List (K × V)
  | [] => [(k, v)]
  | (k', v') :: rest => if k' = k then (k, v) :: rest else (k', v') :: updA k v rest

/-- Lookup in the association-list model of a Go `map`. -/
def lookupA {K V : Type} [DecidableEq K] (k : K) : List (K × V) → Option V
  | [] => none
  | (k', v') :: rest => if k' = k then some v' else lookupA k rest

/-- The map key of `getAnchors`: `periodStart.Format("2006-01-02")`.
The format string prints exactly the calendar date, so the key is the
date triple of the period start. -/
def dateKey (t : GoTime) : Nat × Nat × Nat := (t.year, t.month, t.day)

/-- One iteration of the `getAnchors` loop:
`if existing, exists := anchors[key]; !exists || file.Time.After(existing.Time) { anchors[key] = file }`. -/
def anchorStep (pf : GoTime → GoTime) (m : List ((Nat × Nat × Nat) × BackupFile))
    (f : BackupFile) : List ((Nat × Nat × Nat) × BackupFile) :=
  let k := dateKey (pf f.time)
  match lookupA k m with
  | none => updA k f m
  | some ex => if timeBeforeB ex.time f.time then updA k f m else m

/-- `getAnchors` of `retention/policy.go`: the latest backup of every
period, as the value list of the accumulated map. -/
def getAnchors (files : List BackupFile) (pf : GoTime → GoTime) : List BackupFile :=
  (files.foldl (anchorStep pf) []).map Prod.snd

/-- `getLastN` of `retention/policy.go`: sort ascending by time, keep
the last `n` entries (`nil` when `n ≤ 0`, everything when fewer than
`n`). -/
def getLastN (files : List BackupFile) (n : Int) : List BackupFile :=
  if n ≤ 0 then []
  else
    let s := sortByTime files
    if (s.length : Int) ≤ n then s else s.drop (s.length - n.toNat)

/-- The dedup-by-path pass at the end of `determineFilesToKeep`
(`unique := make(map[string]BackupFile)`). -/
def dedupeByPath (l : List BackupFile) : List BackupFile :=
  (l.foldl (fun m f => updA f.path f m) []).map Prod.snd

/-- `determineFilesToKeep` of `retention/policy.go`. -/
def determineFilesToKeep (files : List BackupFile) (policy : RetentionPolicy) :
    List BackupFile :=
  if files.isEmpty then files
  else
    let sorted := sortByTime files
    let dailyAnchors := getAnchors sorted dailyStart
    let weeklyAnchors := getAnchors sorted weeklyStart
    let monthlyAnchors := getAnchors sorted monthlyStart
    let yearlyAnchors := getAnchors sorted yearlyStart
    let toKeep := getLastN dailyAnchors policy.daily ++ getLastN weeklyAnchors policy.weekly
      ++ getLastN monthlyAnchors policy.monthly ++ getLastN yearlyAnchors policy.yearly
    dedupeByPath toKeep

/-! ### Association-list lemmas -/

section AssocLemmas

variable {K V : Type} [DecidableEq K]

theorem lookupA_updA_self (k : K) (v : V) (m : List (K × V)) :
    lookupA k (updA k v m) = some v := by
  induction m with
  | nil => simp [updA, lookupA]
  | cons e rest ih =>
    obtain ⟨k', v'⟩ := e
    unfold updA
    by_cases h : k' = k
    · simp [h, lookupA]
    · simp only [if_neg h]
      unfold lookupA
      simp [h, ih]

theorem lookupA_updA_ne {k k' : K} (h : k' ≠ k) (v : V) (m : List (K × V)) :
    lookupA k' (updA k v m) = lookupA k' m := by
  induction m with
  | nil =>
    simp only [updA, lookupA]
    rw [if_neg (Ne.symm h)]
  | cons e rest ih =>
    obtain ⟨k0, v0⟩ := e
    by_cases hk : k0 = k
    · subst hk
      have e : updA k0 v ((k0, v0) :: rest) = (k0, v) :: rest := by
        unfold updA; simp
      rw [e]
      unfold lookupA
      rw [if_neg (Ne.symm h), if_neg (Ne.symm h)]
    · have e : updA k v ((k0, v0) :: rest) = (k0, v0) :: updA k v rest := by
        rw [updA, if_neg hk]
      rw [e]
      unfold lookupA
      by_cases hk' : k0 = k'
      · simp [hk']
      · simp [hk', ih]

theorem updA_of_lookup_none {k : K} {m : List (K × V)} (h : lookupA k m = none) (v : V) :
    updA k v m = m ++ [(k, v)] := by
  induction m with
  | nil => simp [updA]
  | cons e rest ih =>
    obtain ⟨k0, v0⟩ := e
    unfold lookupA at h
    by_cases hk : k0 = k
    · simp [hk] at h
    · simp only [if_neg hk] at h
      unfold updA
      simp [hk, ih h]

theorem keys_updA_of_mem {k : K} {m : List (K × V)} {w : V}
    (h : lookupA k m = some w) (v : V) :
    (updA k v m).map Prod.fst = m.map Prod.fst := by
  induction m with
  | nil => simp [lookupA] at h
  | cons e rest ih =>
    obtain ⟨k0, v0⟩ := e
    unfold lookupA at h
    unfold updA
    by_cases hk : k0 = k
    · simp [hk]
    · simp only [if_neg hk] at h
      simp [hk, ih h]

theorem mem_map_snd {v : V} {m : List (K × V)} :
    v ∈ m.map Prod.snd ↔ ∃ k, (k, v) ∈ m := by
  constructor
  · intro h
    obtain ⟨⟨k, v'⟩, hm, rfl⟩ := List.mem_map.mp h
    exact ⟨k, hm⟩
  · rintro ⟨k, hm⟩
    exact List.mem_map.mpr ⟨(k, v), hm, rfl⟩

theorem mem_of_lookupA {k : K} {v : V} {m : List (K × V)} (h : lookupA k m = some v) :
    (k, v) ∈ m := by
  induction m with
  | nil => simp [lookupA] at h
  | cons e rest ih =>
    obtain ⟨k0, v0⟩ := e
    unfold lookupA at h
    by_cases hk : k0 = k
    · simp only [if_pos hk] at h
      obtain rfl : v0 = v := by injection h
      subst hk
      exact List.mem_cons_self _ _
    · simp only [if_neg hk] at h
      exact List.mem_cons_of_mem _ (ih h)

theorem lookupA_of_mem {k : K} {v : V} {m : List (K × V)}
    (hnd : (m.map Prod.fst).Nodup) (h : (k, v) ∈ m) : lookupA k m = some v := by
  induction m with
  | nil => simp at h
  | cons e rest ih =>
    obtain ⟨k0, v0⟩ := e
    simp only [List.map_cons, List.nodup_cons] at hnd
    rcases List.mem_cons.mp h with he | hrest
    · obtain ⟨rfl, rfl⟩ : k = k0 ∧ v = v0 := by
        constructor <;> injection he <;> simp_all
      unfold lookupA
      simp
    · have hk : k0 ≠ k := by
        intro hc
        subst hc
        exact hnd.1 (List.mem_map.mpr ⟨(k0, v), hrest, rfl⟩)
      unfold lookupA
      simp [hk, ih hnd.2 hrest]

theorem lookupA_append {K V : Type} [DecidableEq K] (k : K) (m1 m2 : List (K × V)) :
    lookupA k (m1 ++ m2) =
      (match lookupA k m1 with | some v => some v | none => lookupA k m2) := by
  induction m1 with
  | nil => simp [lookupA]
  | cons e rest ih =>
    obtain ⟨k0, v0⟩ := e
    by_cases hk : k0 = k
    · simp [lookupA, hk]
    · simp only [List.cons_append, lookupA, if_neg hk]
      exact ih

theorem mem_updA {K V : Type} [DecidableEq K] {k : K} {v : V} {m : List (K × V)} {e : K × V}
    (h : e ∈ updA k v m) : e ∈ m ∨ e = (k, v) := by
  induction m with
  | nil => simp [updA] at h; simp [h]
  | cons e0 rest ih =>
    obtain ⟨k0, v0⟩ := e0
    unfold updA at h
    by_cases hk : k0 = k
    · rw [if_pos hk] at h
      rcases List.mem_cons.mp h with he | hr
      · exact Or.inr he
      · exact Or.inl (List.mem_cons_of_mem _ hr)
    · rw [if_neg hk] at h
      rcases List.mem_cons.mp h with he | hr
      · exact Or.inl (he ▸ List.mem_cons_self _ _)
      · rcases ih hr with h1 | h2
        · exact Or.inl (List.mem_cons_of_mem _ h1)
        · exact Or.inr h2

end AssocLemmas

/-! ### Characterization of `getAnchors` -/

/-- `f` is the strictly latest candidate of its period group in `l`
(the extensional description of a period anchor). -/
def isAnchorIn (pf : GoTime → GoTime) (l : List BackupFile) (f : BackupFile) : Prop :=
  f ∈ l ∧ ∀ u ∈ l, dateKey (pf u.time) = dateKey (pf f.time) → u ≠ f →
    timeBeforeB u.time f.time = true

instance (pf : GoTime → GoTime) (l : List BackupFile) (f : BackupFile) :
    Decidable (isAnchorIn pf l f) := by
  unfold isAnchorIn; infer_instance

/-- Invariant of the `getAnchors` accumulation map after processing the
prefix `seen` of the candidate list. -/
structure AnchInv (pf : GoTime → GoTime) (seen : List BackupFile)
    (m : List ((Nat × Nat × Nat) × BackupFile)) : Prop where
  nodupKeys : (m.map Prod.fst).Nodup
  keyOf : ∀ e ∈ m, dateKey (pf e.2.time) = e.1
  domIff : ∀ k, (∃ v, lookupA k m = some v) ↔ ∃ u ∈ seen, dateKey (pf u.time) = k
  maxProp : ∀ k v, lookupA k m = some v →
    v ∈ seen ∧ dateKey (pf v.time) = k ∧
      ∀ u ∈ seen, dateKey (pf u.time) = k → u ≠ v → timeBeforeB u.time v.time = true

theorem anchInv_nil (pf : GoTime → GoTime) : AnchInv pf [] [] := by
  refine ⟨List.nodup_nil, by simp, fun k => ?_, fun k v h => by simp [lookupA] at h⟩
  simp [lookupA]

theorem timeBeforeB_true {a b : GoTime} : timeBeforeB a b = true ↔ tcode a < tcode b := by
  simp [timeBeforeB]

theorem timeBeforeB_trans {a b c : GoTime} (h1 : timeBeforeB a b = true)
    (h2 : timeBeforeB b c = true) : timeBeforeB a c = true := by
  rw [timeBeforeB_true] at *
  omega

theorem lookupA_append_of_none {K V : Type} [DecidableEq K] {k : K} {m1 : List (K × V)}
    (h : lookupA k m1 = none) (m2 : List (K × V)) : lookupA k (m1 ++ m2) = lookupA k m2 := by
  induction m1 with
  | nil => simp
  | cons e rest ih =>
    obtain ⟨k0, v0⟩ := e
    unfold lookupA at h
    by_cases hk : k0 = k
    · rw [if_pos hk] at h
      exact Option.noConfusion h
    · rw [if_neg hk] at h
      simp only [List.cons_append, lookupA, if_neg hk]
      exact ih h

theorem lookupA_append_of_some {K V : Type} [DecidableEq K] {k : K} {v : V} {m1 : List (K × V)}
    (h : lookupA k m1 = some v) (m2 : List (K × V)) : lookupA k (m1 ++ m2) = some v := by
  induction m1 with
  | nil => simp [lookupA] at h
  | cons e rest ih =>
    obtain ⟨k0, v0⟩ := e
    unfold lookupA at h
    by_cases hk : k0 = k
    · rw [if_pos hk] at h
      simp only [List.cons_append, lookupA, if_pos hk]
      exact h
    · rw [if_neg hk] at h
      simp only [List.cons_append, lookupA, if_neg hk]
      exact ih h

theorem anchInv_step {pf : GoTime → GoTime} {seen : List BackupFile}
    {m : List ((Nat × Nat × Nat) × BackupFile)} {x : BackupFile}
    (inv : AnchInv pf seen m)
    (hx : ∀ u ∈ seen, u.time ≠ x.time ∧ tcode u.time ≠ tcode x.time) :
    AnchInv pf (seen ++ [x]) (anchorStep pf m x) := by
  have hxseen : x ∉ seen := fun hc => (hx x hc).1 rfl
  have hmem_new : ∀ u : BackupFile, u ∈ seen ++ [x] ↔ u ∈ seen ∨ u = x := by
    intro u; simp
  unfold anchorStep
  rcases hl : lookupA (dateKey (pf x.time)) m with _ | ex
  · -- fresh period key: the map gains the entry (key x, x) at the end
    simp only [hl]
    rw [updA_of_lookup_none hl]
    have hknotin : dateKey (pf x.time) ∉ m.map Prod.fst := by
      intro hc
      obtain ⟨e, hem, hek⟩ := List.mem_map.mp hc
      obtain ⟨k1, v1⟩ := e
      simp only at hek
      subst hek
      have hlk := lookupA_of_mem inv.nodupKeys hem
      rw [hl] at hlk
      exact Option.noConfusion hlk
    refine ⟨?_, ?_, ?_, ?_⟩
    · rw [List.map_append]
      refine List.Nodup.append inv.nodupKeys (by simp) ?_
      intro a ha hb
      simp only [List.map_cons, List.map_nil, List.mem_singleton] at hb
      subst hb
      exact hknotin ha
    · intro e he
      rcases List.mem_append.mp he with h1 | h2
      · exact inv.keyOf e h1
      · have he2 : e = (dateKey (pf x.time), x) := by simpa using h2
        subst he2
        rfl
    · intro k
      by_cases hk : k = dateKey (pf x.time)
      · subst hk
        rw [lookupA_append_of_none hl]
        simp only [lookupA, if_pos rfl]
        exact ⟨fun _ => ⟨x, by simp, rfl⟩, fun _ => ⟨x, rfl⟩⟩
      · rcases hcase : lookupA k m with _ | w
        · rw [lookupA_append_of_none hcase]
          simp only [lookupA]
          rw [if_neg (fun hc => hk hc.symm)]
          constructor
          · rintro ⟨v, hv⟩
            exact Option.noConfusion hv
          · rintro ⟨u, hu, huk⟩
            rcases (hmem_new u).mp hu with h1 | h2
            · obtain ⟨v, hv⟩ := (inv.domIff k).mpr ⟨u, h1, huk⟩
              rw [hcase] at hv
              exact Option.noConfusion hv
            · subst h2
              exact absurd huk.symm hk
        · rw [lookupA_append_of_some hcase]
          constructor
          · intro _
            obtain ⟨u, h1, huk⟩ := (inv.domIff k).mp ⟨w, hcase⟩
            exact ⟨u, List.mem_append_left _ h1, huk⟩
          · intro _
            exact ⟨w, rfl⟩
    · intro k v hv
      by_cases hk : k = dateKey (pf x.time)
      · subst hk
        rw [lookupA_append_of_none hl] at hv
        simp only [lookupA, if_pos rfl] at hv
        obtain rfl : x = v := by injection hv
        refine ⟨by simp, rfl, ?_⟩
        intro u hu huk hune
        rcases (hmem_new u).mp hu with h1 | h2
        · exfalso
          obtain ⟨w, hw⟩ := (inv.domIff _).mpr ⟨u, h1, huk⟩
          rw [hl] at hw
          exact Option.noConfusion hw
        · exact absurd h2 hune
      · rcases hcase : lookupA k m with _ | w
        · rw [lookupA_append_of_none hcase] at hv
          simp only [lookupA] at hv
          rw [if_neg (fun hc => hk hc.symm)] at hv
          exact Option.noConfusion hv
        · rw [lookupA_append_of_some hcase] at hv
          obtain rfl : w = v := by injection hv
          obtain ⟨hvseen, hvk, hvmax⟩ := inv.maxProp k w hcase
          refine ⟨List.mem_append_left _ hvseen, hvk, ?_⟩
          intro u hu huk hune
          rcases (hmem_new u).mp hu with h1 | h2
          · exact hvmax u h1 huk hune
          · subst h2
            exact absurd huk.symm hk
  · -- existing anchor `ex` for x's period key
    obtain ⟨hexseen, hexk, hexmax⟩ := inv.maxProp _ ex hl
    by_cases hcmp : timeBeforeB ex.time x.time = true
    · -- x is strictly later: it replaces ex as the period's anchor
      simp only [hl, if_pos hcmp]
      refine ⟨?_, ?_, ?_, ?_⟩
      · rw [keys_updA_of_mem hl]
        exact inv.nodupKeys
      · intro e he
        rcases mem_updA he with h1 | h2
        · exact inv.keyOf e h1
        · subst h2
          rfl
      · intro k
        by_cases hk : k = dateKey (pf x.time)
        · subst hk
          rw [lookupA_updA_self]
          exact ⟨fun _ => ⟨x, by simp, rfl⟩, fun _ => ⟨x, rfl⟩⟩
        · rw [lookupA_updA_ne hk]
          rw [inv.domIff k]
          constructor
          · rintro ⟨u, hu, huk⟩
            exact ⟨u, List.mem_append_left _ hu, huk⟩
          · rintro ⟨u, hu, huk⟩
            rcases (hmem_new u).mp hu with h1 | h2
            · exact ⟨u, h1, huk⟩
            · subst h2
              exact absurd huk.symm hk
      · intro k v hv
        by_cases hk : k = dateKey (pf x.time)
        · subst hk
          rw [lookupA_updA_self] at hv
          obtain rfl : x = v := by injection hv
          refine ⟨by simp, rfl, ?_⟩
          intro u hu huk hune
          rcases (hmem_new u).mp hu with h1 | h2
          · by_cases hue : u = ex
            · subst hue
              exact hcmp
            · exact timeBeforeB_trans (hexmax u h1 huk hue) hcmp
          · exact absurd h2 hune
        · rw [lookupA_updA_ne hk] at hv
          obtain ⟨hvseen, hvk, hvmax⟩ := inv.maxProp k v hv
          refine ⟨List.mem_append_left _ hvseen, hvk, ?_⟩
          intro u hu huk hune
          rcases (hmem_new u).mp hu with h1 | h2
          · exact hvmax u h1 huk hune
          · subst h2
            exact absurd huk.symm hk
    · -- x is not later than the stored anchor: the map is unchanged
      simp only [hl, if_neg hcmp]
      have hxex : timeBeforeB x.time ex.time = true := by
        rw [timeBeforeB_true]
        have hne := (hx ex hexseen).2
        have hcmp2 : ¬ tcode ex.time < tcode x.time := fun hc =>
          hcmp (timeBeforeB_true.mpr hc)
        omega
      refine ⟨inv.nodupKeys, inv.keyOf, ?_, ?_⟩
      · intro k
        rw [inv.domIff k]
        constructor
        · rintro ⟨u, hu, huk⟩
          exact ⟨u, List.mem_append_left _ hu, huk⟩
        · rintro ⟨u, hu, huk⟩
          rcases (hmem_new u).mp hu with h1 | h2
          · exact ⟨u, h1, huk⟩
          · subst h2
            exact ⟨ex, hexseen, hexk.trans huk⟩
      · intro k v hv
        obtain ⟨hvseen, hvk, hvmax⟩ := inv.maxProp k v hv
        refine ⟨List.mem_append_left _ hvseen, hvk, ?_⟩
        intro u hu huk hune
        rcases (hmem_new u).mp hu with h1 | h2
        · exact hvmax u h1 huk hune
        · subst h2
          rw [huk] at hl
          rw [hv] at hl
          obtain rfl : v = ex := by injection hl
          exact hxex


theorem anchInv_foldl {pf : GoTime → GoTime} :
    ∀ (xs seen : List BackupFile) (m : List ((Nat × Nat × Nat) × BackupFile)),
      (seen ++ xs).Pairwise timeNe → (∀ f ∈ seen ++ xs, f.time.ValidT) →
      AnchInv pf seen m → AnchInv pf (seen ++ xs) (xs.foldl (anchorStep pf) m)
  | [], seen, m, _, _, inv => by simpa using inv
  | x :: xs, seen, m, hD, hV, inv => by
    have hx : ∀ u ∈ seen, u.time ≠ x.time ∧ tcode u.time ≠ tcode x.time := by
      intro u hu
      have hne : timeNe u x := by
        rw [List.pairwise_append] at hD
        exact hD.2.2 u hu x (List.mem_cons_self _ _)
      refine ⟨hne, fun hc => hne ?_⟩
      exact tcode_inj (hV u (List.mem_append_left _ hu))
        (hV x (List.mem_append_right _ (List.mem_cons_self _ _))) hc
    have step := anchInv_step inv hx
    have hD' : ((seen ++ [x]) ++ xs).Pairwise timeNe := by
      rw [List.append_assoc]
      simpa using hD
    have hV' : ∀ f ∈ (seen ++ [x]) ++ xs, f.time.ValidT := by
      intro f hf
      apply hV
      rw [List.append_assoc] at hf
      simpa using hf
    have hrec := anchInv_foldl xs (seen ++ [x]) (anchorStep pf m x) hD' hV' step
    simp only [List.foldl_cons]
    rw [List.append_assoc] at hrec
    simpa using hrec

/-- Characterization of `getAnchors`: under distinct valid timestamps,
its output holds exactly the strict per-period maxima of the input. -/
theorem mem_getAnchors_iff {pf : GoTime → GoTime} {l : List BackupFile} {f : BackupFile}
    (hD : l.Pairwise timeNe) (hV : ∀ g ∈ l, g.time.ValidT) :
    f ∈ getAnchors l pf ↔ isAnchorIn pf l f := by
  have inv := @anchInv_foldl pf l [] [] (by simpa using hD) (by simpa using hV)
    (anchInv_nil pf)
  simp only [List.nil_append] at inv
  unfold getAnchors
  constructor
  · intro h
    obtain ⟨k, hkm⟩ := mem_map_snd.mp h
    have hlk := lookupA_of_mem inv.nodupKeys hkm
    obtain ⟨h1, h2, h3⟩ := inv.maxProp k f hlk
    exact ⟨h1, fun u hu huk hune => h3 u hu (huk.trans h2) hune⟩
  · rintro ⟨hfl, hmax⟩
    obtain ⟨v, hv⟩ := (inv.domIff (dateKey (pf f.time))).mpr ⟨f, hfl, rfl⟩
    obtain ⟨hvl, hvk, hvmax⟩ := inv.maxProp _ v hv
    have hvf : v = f := by
      by_contra hne
      have h1 := hmax v hvl hvk hne
      have h2 := hvmax f hfl rfl (fun hc => hne hc.symm)
      rw [timeBeforeB_true] at h1 h2
      omega
    subst hvf
    exact mem_map_snd.mpr ⟨_, mem_of_lookupA hv⟩

/-- Anchors of one granularity have pairwise distinct timestamps: the
map keys are distinct and each key is a function of the stored value's
timestamp. -/
theorem getAnchors_pairwise_timeNe {pf : GoTime → GoTime} {l : List BackupFile}
    (hD : l.Pairwise timeNe) (hV : ∀ g ∈ l, g.time.ValidT) :
    (getAnchors l pf).Pairwise timeNe := by
  have inv := @anchInv_foldl pf l [] [] (by simpa using hD) (by simpa using hV)
    (anchInv_nil pf)
  simp only [List.nil_append] at inv
  unfold getAnchors
  have hkeys : (l.foldl (anchorStep pf) []).Pairwise (fun a b => a.1 ≠ b.1) :=
    List.pairwise_map.mp inv.nodupKeys
  rw [List.pairwise_map]
  refine List.Pairwise.imp_of_mem ?_ hkeys
  intro a b ha hb hk
  intro hteq
  apply hk
  rw [← inv.keyOf a ha, ← inv.keyOf b hb]
  show dateKey (pf a.2.time) = dateKey (pf b.2.time)
  rw [hteq]

/-- Unconditional: every anchor comes from the candidate list. -/
theorem mem_getAnchors_sub {pf : GoTime → GoTime} :
    ∀ {l : List BackupFile} {f : BackupFile}, f ∈ getAnchors l pf → f ∈ l := by
  suffices h : ∀ (xs : List BackupFile) (m : List ((Nat × Nat × Nat) × BackupFile)) e,
      e ∈ xs.foldl (anchorStep pf) m → e ∈ m ∨ e.2 ∈ xs by
    intro l f hf
    unfold getAnchors at hf
    obtain ⟨k, hkm⟩ := mem_map_snd.mp hf
    rcases h l [] (k, f) hkm with h1 | h2
    · simp at h1
    · exact h2
  intro xs
  induction xs with
  | nil =>
    intro m e he
    exact Or.inl he
  | cons x rest ih =>
    intro m e he
    simp only [List.foldl_cons] at he
    rcases ih _ e he with h1 | h2
    · unfold anchorStep at h1
      rcases hl : lookupA (dateKey (pf x.time)) m with _ | ex
      · simp only [hl] at h1
        rcases mem_updA h1 with hm | he2
        · exact Or.inl hm
        · right
          rw [he2]
          exact List.mem_cons_self _ _
      · simp only [hl] at h1
        by_cases hc : timeBeforeB ex.time x.time = true
        · rw [if_pos hc] at h1
          rcases mem_updA h1 with hm | he2
          · exact Or.inl hm
          · right
            rw [he2]
            exact List.mem_cons_self _ _
        · rw [if_neg hc] at h1
          exact Or.inl h1
    · exact Or.inr (List.mem_cons_of_mem _ h2)

theorem timeBeforeB_self (a : GoTime) : timeBeforeB a a = false := by
  simp [timeBeforeB]

theorem countP_lt_length_of_mem_not {α : Type} (p : α → Bool) {l : List α} {a : α}
    (ha : a ∈ l) (hpa : p a = false) : l.countP p < l.length := by
  induction l with
  | nil => simp at ha
  | cons x rest ih =>
    rcases List.mem_cons.mp ha with rfl | ha2
    · rw [List.countP_cons, hpa]
      simp only [Bool.false_eq_true, if_false, List.length_cons]
      have := List.countP_le_length (p := p) (l := rest)
      omega
    · rw [List.countP_cons]
      simp only [List.length_cons]
      by_cases hx : p x
      · rw [if_pos hx]
        have := ih ha2
        omega
      · rw [if_neg hx]
        have := ih ha2
        omega

theorem sortByTime_perm (l : List BackupFile) : List.Perm (sortByTime l) l :=
  List.perm_insertionSort _ _

theorem sortByTime_pairwise_lt {l : List BackupFile}
    (hD : l.Pairwise timeNe) (hV : ∀ g ∈ l, g.time.ValidT) :
    (sortByTime l).Pairwise (fun a b => timeBeforeB a.time b.time = true) := by
  have hs : (sortByTime l).Pairwise timeLe := List.sorted_insertionSort timeLe l
  have hD' : (sortByTime l).Pairwise timeNe :=
    ((sortByTime_perm l).pairwise_iff (fun h => Ne.symm h)).mpr hD
  have hand := hs.and hD'
  refine List.Pairwise.imp_of_mem ?_ hand
  intro a b ha hb hab
  obtain ⟨hle, hne⟩ := hab
  have hVa := hV a ((sortByTime_perm l).mem_iff.mp ha)
  have hVb := hV b ((sortByTime_perm l).mem_iff.mp hb)
  rw [timeBeforeB_true]
  have : tcode a.time ≠ tcode b.time := fun hc => hne (tcode_inj hVa hVb hc)
  have hle' : tcode a.time ≤ tcode b.time := hle
  omega

theorem mem_drop_iff_strict {s : List BackupFile}
    (hs : s.Pairwise (fun a b => timeBeforeB a.time b.time = true)) (k : Nat) (f : BackupFile) :
    f ∈ s.drop (s.length - k) ↔
      f ∈ s ∧ s.countP (fun u => timeBeforeB f.time u.time) < k := by
  induction s with
  | nil => simp
  | cons x rest ih =>
    have hx : ∀ u ∈ rest, timeBeforeB x.time u.time = true :=
      fun u hu => List.rel_of_pairwise_cons hs hu
    have hrest := hs.of_cons
    by_cases hk : rest.length + 1 ≤ k
    · have hz : (x :: rest).length - k = 0 := by
        simp only [List.length_cons]
        omega
      rw [hz, List.drop_zero]
      constructor
      · intro hf
        refine ⟨hf, ?_⟩
        have hlt : (x :: rest).countP (fun u => timeBeforeB f.time u.time) <
            (x :: rest).length := by
          apply countP_lt_length_of_mem_not _ hf
          exact timeBeforeB_self f.time
        simp only [List.length_cons] at hlt
        omega
      · rintro ⟨hf, _⟩
        exact hf
    · have hk' : k ≤ rest.length := by omega
      have hsucc : (x :: rest).length - k = (rest.length - k) + 1 := by
        simp only [List.length_cons]
        omega
      rw [hsucc, List.drop_succ_cons, ih hrest]
      constructor
      · rintro ⟨hf, hc⟩
        refine ⟨List.mem_cons_of_mem _ hf, ?_⟩
        have hxf := hx f hf
        have hfx : timeBeforeB f.time x.time = false := by
          rw [timeBeforeB_true] at hxf
          simp only [timeBeforeB, decide_eq_false_iff_not]
          omega
        rw [List.countP_cons, hfx]
        simpa using hc
      · rintro ⟨hf, hc⟩
        rcases List.mem_cons.mp hf with rfl | hf2
        · exfalso
          have hall : rest.countP (fun u => timeBeforeB f.time u.time) = rest.length := by
            rw [List.countP_eq_length]
            intro u hu
            exact hx u hu
          rw [List.countP_cons, timeBeforeB_self f.time] at hc
          simp only [Bool.false_eq_true, if_false] at hc
          omega
        · refine ⟨hf2, ?_⟩
          have hxf := hx f hf2
          have hfx : timeBeforeB f.time x.time = false := by
            rw [timeBeforeB_true] at hxf
            simp only [timeBeforeB, decide_eq_false_iff_not]
            omega
          rw [List.countP_cons, hfx] at hc
          simpa using hc

/-- Characterization of `getLastN`: a candidate is kept iff fewer than
`n` of the list's entries have strictly later timestamps (`n ≤ 0`
yields nothing). -/
theorem mem_getLastN_iff {l : List BackupFile} {n : Int} {f : BackupFile}
    (hD : l.Pairwise timeNe) (hV : ∀ g ∈ l, g.time.ValidT) :
    f ∈ getLastN l n ↔
      f ∈ l ∧ 0 < n ∧ (l.countP (fun u => timeBeforeB f.time u.time) : Int) < n := by
  unfold getLastN
  by_cases hn : n ≤ 0
  · rw [if_pos hn]
    simp only [List.not_mem_nil, false_iff]
    rintro ⟨_, hpos, _⟩
    omega
  · rw [if_neg hn]
    have hnpos : 0 < n := by omega
    have hperm := sortByTime_perm l
    have hcount := hperm.countP_eq (fun u => timeBeforeB f.time u.time)
    have hstrict := sortByTime_pairwise_lt hD hV
    by_cases hle : ((sortByTime l).length : Int) ≤ n
    · rw [if_pos hle]
      simp only [hperm.mem_iff]
      constructor
      · intro hf
        refine ⟨hf, hnpos, ?_⟩
        have hlt : (sortByTime l).countP (fun u => timeBeforeB f.time u.time) <
            (sortByTime l).length := by
          apply countP_lt_length_of_mem_not _ (hperm.mem_iff.mpr hf)
          exact timeBeforeB_self f.time
        rw [hcount] at hlt
        have := hperm.length_eq
        omega
      · rintro ⟨hf, _, _⟩
        exact hf
    · rw [if_neg hle]
      rw [mem_drop_iff_strict hstrict n.toNat]
      simp only [hperm.mem_iff, hcount]
      constructor
      · rintro ⟨hf, hc⟩
        refine ⟨hf, hnpos, ?_⟩
        omega
      · rintro ⟨hf, _, hc⟩
        refine ⟨hf, ?_⟩
        omega

/-- Unconditional: `getLastN` returns entries of its input. -/
theorem mem_getLastN_sub {l : List BackupFile} {n : Int} {f : BackupFile}
    (h : f ∈ getLastN l n) : f ∈ l := by
  unfold getLastN at h
  by_cases hn : n ≤ 0
  · rw [if_pos hn] at h
    simp at h
  · rw [if_neg hn] at h
    by_cases hle : ((sortByTime l).length : Int) ≤ n
    · rw [if_pos hle] at h
      exact (sortByTime_perm l).mem_iff.mp h
    · rw [if_neg hle] at h
      exact (sortByTime_perm l).mem_iff.mp (List.mem_of_mem_drop h)

theorem getLastN_length_le_n {l : List BackupFile} {n : Int} (hn : 0 ≤ n) :
    ((getLastN l n).length : Int) ≤ n := by
  unfold getLastN
  by_cases h0 : n ≤ 0
  · rw [if_pos h0]
    simpa using hn
  · rw [if_neg h0]
    by_cases hle : ((sortByTime l).length : Int) ≤ n
    · rw [if_pos hle]
      exact hle
    · rw [if_neg hle]
      rw [List.length_drop]
      omega

theorem getLastN_ne_nil {l : List BackupFile} {n : Int} (hl : l ≠ []) (hn : 0 < n) :
    getLastN l n ≠ [] := by
  unfold getLastN
  rw [if_neg (by omega : ¬ n ≤ 0)]
  have hlen : 0 < (sortByTime l).length := by
    rcases hsort : sortByTime l with _ | ⟨x, rest⟩
    · exfalso
      have := (sortByTime_perm l).length_eq
      rw [hsort] at this
      simp at this
      exact hl (List.eq_nil_of_length_eq_zero this.symm)
    · simp
  by_cases hle : ((sortByTime l).length : Int) ≤ n
  · rw [if_pos hle]
    intro hc
    rw [hc] at hlen
    simp at hlen
  · rw [if_neg hle]
    intro hc
    have := congrArg List.length hc
    rw [List.length_drop] at this
    simp at this
    omega

/-! ### Characterization of `dedupeByPath` -/

theorem updA_length_le {K V : Type} [DecidableEq K] (k : K) (v : V) (m : List (K × V)) :
    (updA k v m).length ≤ m.length + 1 ∧ m.length ≤ (updA k v m).length := by
  induction m with
  | nil => simp [updA]
  | cons e rest ih =>
    obtain ⟨k0, v0⟩ := e
    unfold updA
    by_cases hk : k0 = k
    · rw [if_pos hk]
      simp
    · rw [if_neg hk]
      simp only [List.length_cons]
      omega

theorem dedupe_foldl_inv :
    ∀ (xs seen : List BackupFile) (m : List (String × BackupFile)),
      ((m.map Prod.fst).Nodup ∧ (∀ e ∈ m, e.2.path = e.1) ∧
        (∀ k v, lookupA k m = some v → v ∈ seen ∧ v.path = k) ∧
        (∀ u ∈ seen, ∃ v, lookupA u.path m = some v)) →
      (((xs.foldl (fun m f => updA f.path f m) m).map Prod.fst).Nodup ∧
        (∀ e ∈ xs.foldl (fun m f => updA f.path f m) m, e.2.path = e.1) ∧
        (∀ k v, lookupA k (xs.foldl (fun m f => updA f.path f m) m) = some v →
          v ∈ seen ++ xs ∧ v.path = k) ∧
        (∀ u ∈ seen ++ xs, ∃ v, lookupA u.path (xs.foldl (fun m f => updA f.path f m) m) = some v))
  | [], seen, m, inv => by simpa using inv
  | x :: xs, seen, m, inv => by
    obtain ⟨hnd, hkey, hval, hdom⟩ := inv
    simp only [List.foldl_cons]
    have hstep : (((updA x.path x m).map Prod.fst).Nodup ∧
        (∀ e ∈ updA x.path x m, e.2.path = e.1) ∧
        (∀ k v, lookupA k (updA x.path x m) = some v → v ∈ seen ++ [x] ∧ v.path = k) ∧
        (∀ u ∈ seen ++ [x], ∃ v, lookupA u.path (updA x.path x m) = some v)) := by
      refine ⟨?_, ?_, ?_, ?_⟩
      · rcases hl : lookupA x.path m with _ | w
        · rw [updA_of_lookup_none hl, List.map_append]
          refine List.Nodup.append hnd (by simp) ?_
          intro a ha hb
          simp only [List.map_cons, List.map_nil, List.mem_singleton] at hb
          subst hb
          obtain ⟨e, hem, hek⟩ := List.mem_map.mp ha
          obtain ⟨k1, v1⟩ := e
          simp only at hek
          subst hek
          have hlk := lookupA_of_mem hnd hem
          rw [hl] at hlk
          exact Option.noConfusion hlk
        · rw [keys_updA_of_mem hl]
          exact hnd
      · intro e he
        rcases mem_updA he with h1 | h2
        · exact hkey e h1
        · subst h2
          rfl
      · intro k v hv
        by_cases hk : k = x.path
        · subst hk
          rw [lookupA_updA_self] at hv
          obtain rfl : x = v := by injection hv
          exact ⟨List.mem_append_right _ (by simp), rfl⟩
        · rw [lookupA_updA_ne hk] at hv
          obtain ⟨h1, h2⟩ := hval k v hv
          exact ⟨List.mem_append_left _ h1, h2⟩
      · intro u hu
        rcases List.mem_append.mp hu with h1 | h2
        · by_cases hk : u.path = x.path
          · rw [hk, lookupA_updA_self]
            exact ⟨x, rfl⟩
          · rw [lookupA_updA_ne hk]
            exact hdom u h1
        · simp only [List.mem_singleton] at h2
          subst h2
          rw [lookupA_updA_self]
          exact ⟨u, rfl⟩
    have hrec := dedupe_foldl_inv xs (seen ++ [x]) (updA x.path x m) hstep
    obtain ⟨r1, r2, r3, r4⟩ := hrec
    refine ⟨r1, r2, ?_, ?_⟩
    · intro k v hv
      obtain ⟨h1, h2⟩ := r3 k v hv
      rw [List.append_assoc] at h1
      refine ⟨?_, h2⟩
      simpa using h1
    · intro u hu
      apply r4
      rw [List.append_assoc]
      simpa using hu

theorem dedupeByPath_facts (l : List BackupFile) :
    ((dedupeByPath l).Pairwise pathNe) ∧
      (∀ f ∈ dedupeByPath l, f ∈ l) ∧
      (∀ u ∈ l, ∃ v ∈ dedupeByPath l, v.path = u.path) := by
  have inv := dedupe_foldl_inv l [] [] ⟨by simp, by simp, by simp [lookupA], by simp⟩
  simp only [List.nil_append] at inv
  obtain ⟨hnd, hkey, hval, hdom⟩ := inv
  unfold dedupeByPath
  refine ⟨?_, ?_, ?_⟩
  · have hkeys := List.pairwise_map.mp hnd
    rw [List.pairwise_map]
    refine List.Pairwise.imp_of_mem ?_ hkeys
    intro a b ha hb hk hpeq
    apply hk
    rw [← hkey a ha, ← hkey b hb]
    exact hpeq
  · intro f hf
    obtain ⟨k, hkm⟩ := mem_map_snd.mp hf
    exact (hval k f (lookupA_of_mem hnd hkm)).1
  · intro u hu
    obtain ⟨v, hv⟩ := hdom u hu
    obtain ⟨hv1, hv2⟩ := hval _ v hv
    exact ⟨v, mem_map_snd.mpr ⟨_, mem_of_lookupA hv⟩, hv2⟩

/-- Under unique paths, dedup is the identity on membership. -/
theorem mem_dedupeByPath_iff {l : List BackupFile} {f : BackupFile}
    (huniq : ∀ a ∈ l, ∀ b ∈ l, a.path = b.path → a = b) :
    f ∈ dedupeByPath l ↔ f ∈ l := by
  obtain ⟨_, hsub, hcov⟩ := dedupeByPath_facts l
  constructor
  · exact hsub f
  · intro hf
    obtain ⟨v, hv1, hv2⟩ := hcov f hf
    obtain rfl : v = f := huniq v (hsub v hv1) f hf hv2
    exact hv1

theorem dedupeByPath_length_le (l : List BackupFile) :
    (dedupeByPath l).length ≤ l.length := by
  unfold dedupeByPath
  rw [List.length_map]
  suffices h : ∀ (xs : List BackupFile) (m : List (String × BackupFile)),
      (xs.foldl (fun m f => updA f.path f m) m).length ≤ m.length + xs.length by
    simpa using h l []
  intro xs
  induction xs with
  | nil => simp
  | cons x rest ih =>
    intro m
    simp only [List.foldl_cons, List.length_cons]
    have h1 := ih (updA x.path x m)
    have h2 := (updA_length_le x.path x m).1
    omega

theorem dedupeByPath_ne_nil {l : List BackupFile} (hl : l ≠ []) : dedupeByPath l ≠ [] := by
  obtain ⟨_, _, hcov⟩ := dedupeByPath_facts l
  rcases l with _ | ⟨x, rest⟩
  · exact absurd rfl hl
  · obtain ⟨v, hv, _⟩ := hcov x (List.mem_cons_self _ _)
    intro hc
    rw [hc] at hv
    simp at hv

/-! ### The keep-set characterization (`determineFilesToKeep`) -/

theorem nodup_of_pairwise_timeNe {l : List BackupFile} (hT : l.Pairwise timeNe) : l.Nodup :=
  hT.imp (fun h hc => h (congrArg BackupFile.time hc))

theorem nodup_of_pairwise_pathNe {l : List BackupFile} (hP : l.Pairwise pathNe) : l.Nodup :=
  hP.imp (fun h hc => h (congrArg BackupFile.path hc))

theorem eq_of_mem_of_pathEq {S : List BackupFile} (hP : S.Pairwise pathNe) {a b : BackupFile}
    (ha : a ∈ S) (hb : b ∈ S) (hpath : a.path = b.path) : a = b := by
  by_contra hne
  exact hP.forall (fun x y h => Ne.symm h) ha hb hne hpath

theorem isAnchorIn_perm {pf : GoTime → GoTime} {l l' : List BackupFile} {f : BackupFile}
    (hp : List.Perm l l') : isAnchorIn pf l f ↔ isAnchorIn pf l' f := by
  unfold isAnchorIn
  rw [hp.mem_iff]
  constructor
  · rintro ⟨h1, h2⟩
    exact ⟨h1, fun u hu => h2 u (hp.mem_iff.mpr hu)⟩
  · rintro ⟨h1, h2⟩
    exact ⟨h1, fun u hu => h2 u (hp.mem_iff.mp hu)⟩

theorem countP_eq_of_equiv {l1 l2 : List BackupFile} (h1 : l1.Nodup) (h2 : l2.Nodup)
    {p1 p2 : BackupFile → Bool}
    (he : ∀ x, (x ∈ l1 ∧ p1 x = true) ↔ (x ∈ l2 ∧ p2 x = true)) :
    l1.countP p1 = l2.countP p2 := by
  rw [List.countP_eq_length_filter, List.countP_eq_length_filter]
  have hf1 : (l1.filter p1).Nodup := h1.filter _
  have hf2 : (l2.filter p2).Nodup := h2.filter _
  have hsub1 : l1.filter p1 ⊆ l2.filter p2 := by
    intro x hx
    rw [List.mem_filter] at hx ⊢
    exact (he x).mp hx
  have hsub2 : l2.filter p2 ⊆ l1.filter p1 := by
    intro x hx
    rw [List.mem_filter] at hx ⊢
    exact (he x).mpr hx
  exact ((hf1.subperm hsub1).antisymm (hf2.subperm hsub2)).length_eq

/--
Modelled on the specification's selection rule, steps 3 and 4 of §4.4,
read extensionally: `f` is one of the anchors of this granularity
(step 3: per-period groups keep only their strictly latest candidate),
and fewer than `n` anchors of the same granularity have strictly later
timestamps — which is exactly membership in the last `n` entries of the
anchors sorted ascending by timestamp (step 4); `n ≤ 0` selects
nothing.
-/
def specSelected (S : List BackupFile) (pf : GoTime → GoTime) (n : Int) (f : BackupFile) : Prop :=
  isAnchorIn pf S f ∧ 0 < n ∧
    ((S.countP fun u => decide (isAnchorIn pf S u) && timeBeforeB f.time u.time) : Int) < n

instance (S : List BackupFile) (pf : GoTime → GoTime) (n : Int) (f : BackupFile) :
    Decidable (specSelected S pf n f) := by
  unfold specSelected; infer_instance

/--
The specification's keep-set (§4.4 step 5): the union of the four
granularities' selections; dedup by path is reflected by stating
membership extensionally.
-/
def specKeeps (S : List BackupFile) (P : RetentionPolicy) (f : BackupFile) : Prop :=
  specSelected S dailyStart P.daily f ∨ specSelected S weeklyStart P.weekly f ∨
    specSelected S monthlyStart P.monthly f ∨ specSelected S yearlyStart P.yearly f

instance (S : List BackupFile) (P : RetentionPolicy) (f : BackupFile) :
    Decidable (specKeeps S P f) := by
  unfold specKeeps; infer_instance

/-- Unconditional: the keep-set consists of candidates. -/
theorem mem_keep_sub {S : List BackupFile} {P : RetentionPolicy} {f : BackupFile}
    (h : f ∈ determineFilesToKeep S P) : f ∈ S := by
  unfold determineFilesToKeep at h
  by_cases he : S.isEmpty
  · rw [if_pos he] at h
    exact h
  · rw [if_neg he] at h
    simp only at h
    have hsub := (dedupeByPath_facts _).2.1 f h
    have : f ∈ sortByTime S := by
      rcases List.mem_append.mp hsub with h1 | h1
      rcases List.mem_append.mp h1 with h2 | h2
      rcases List.mem_append.mp h2 with h3 | h3
      · exact mem_getAnchors_sub (mem_getLastN_sub h3)
      · exact mem_getAnchors_sub (mem_getLastN_sub h3)
      · exact mem_getAnchors_sub (mem_getLastN_sub h2)
      · exact mem_getAnchors_sub (mem_getLastN_sub h1)
    exact (sortByTime_perm S).mem_iff.mp this

/-- One granularity of the keep-set characterization. -/
theorem mem_getLastN_anchors_iff {S : List BackupFile} {pf : GoTime → GoTime} {n : Int}
    {f : BackupFile} (hV : ∀ g ∈ S, g.time.ValidT) (hT : S.Pairwise timeNe)
    (hP : S.Pairwise pathNe) :
    f ∈ getLastN (getAnchors (sortByTime S) pf) n ↔ specSelected S pf n f := by
  have hperm := sortByTime_perm S
  have hTs : (sortByTime S).Pairwise timeNe :=
    (hperm.pairwise_iff (fun h => Ne.symm h)).mpr hT
  have hVs : ∀ g ∈ sortByTime S, g.time.ValidT := fun g hg => hV g (hperm.mem_iff.mp hg)
  have hDA : (getAnchors (sortByTime S) pf).Pairwise timeNe := getAnchors_pairwise_timeNe hTs hVs
  have hVA : ∀ g ∈ getAnchors (sortByTime S) pf, g.time.ValidT :=
    fun g hg => hVs g (mem_getAnchors_sub hg)
  rw [mem_getLastN_iff hDA hVA]
  unfold specSelected
  have hanch : ∀ u, u ∈ getAnchors (sortByTime S) pf ↔ isAnchorIn pf S u := by
    intro u
    rw [mem_getAnchors_iff hTs hVs, isAnchorIn_perm hperm]
  have hcnt : (getAnchors (sortByTime S) pf).countP (fun u => timeBeforeB f.time u.time) =
      S.countP (fun u => decide (isAnchorIn pf S u) && timeBeforeB f.time u.time) := by
    apply countP_eq_of_equiv (nodup_of_pairwise_timeNe hDA) (nodup_of_pairwise_pathNe hP)
    intro x
    simp only [Bool.and_eq_true, decide_eq_true_eq]
    constructor
    · rintro ⟨hx, hb⟩
      have hax := (hanch x).mp hx
      exact ⟨hax.1, hax, hb⟩
    · rintro ⟨hxS, hax, hb⟩
      exact ⟨(hanch x).mpr hax, hb⟩
  rw [hanch f, hcnt]

/--
Master characterization of `determineFilesToKeep`: under valid,
pairwise-distinct timestamps and distinct paths, a candidate is kept
iff some granularity selects it per the specification's algorithm.
-/
theorem mem_keep_iff {S : List BackupFile} {P : RetentionPolicy} {f : BackupFile}
    (hV : ∀ g ∈ S, g.time.ValidT) (hT : S.Pairwise timeNe) (hP : S.Pairwise pathNe) :
    f ∈ determineFilesToKeep S P ↔ f ∈ S ∧ specKeeps S P f := by
  unfold determineFilesToKeep
  by_cases he : S.isEmpty
  · rw [if_pos he]
    have hS : S = [] := List.isEmpty_iff.mp he
    subst hS
    simp
  · rw [if_neg he]
    simp only
    have huniq : ∀ a ∈ (getLastN (getAnchors (sortByTime S) dailyStart) P.daily ++
        getLastN (getAnchors (sortByTime S) weeklyStart) P.weekly ++
        getLastN (getAnchors (sortByTime S) monthlyStart) P.monthly ++
        getLastN (getAnchors (sortByTime S) yearlyStart) P.yearly),
        ∀ b ∈ (getLastN (getAnchors (sortByTime S) dailyStart) P.daily ++
        getLastN (getAnchors (sortByTime S) weeklyStart) P.weekly ++
        getLastN (getAnchors (sortByTime S) monthlyStart) P.monthly ++
        getLastN (getAnchors (sortByTime S) yearlyStart) P.yearly),
        a.path = b.path → a = b := by
      have hmem : ∀ a ∈ (getLastN (getAnchors (sortByTime S) dailyStart) P.daily ++
          getLastN (getAnchors (sortByTime S) weeklyStart) P.weekly ++
          getLastN (getAnchors (sortByTime S) monthlyStart) P.monthly ++
          getLastN (getAnchors (sortByTime S) yearlyStart) P.yearly), a ∈ S := by
        intro a ha
        have : a ∈ sortByTime S := by
          rcases List.mem_append.mp ha with h1 | h1
          rcases List.mem_append.mp h1 with h2 | h2
          rcases List.mem_append.mp h2 with h3 | h3
          · exact mem_getAnchors_sub (mem_getLastN_sub h3)
          · exact mem_getAnchors_sub (mem_getLastN_sub h3)
          · exact mem_getAnchors_sub (mem_getLastN_sub h2)
          · exact mem_getAnchors_sub (mem_getLastN_sub h1)
        exact (sortByTime_perm S).mem_iff.mp this
      intro a ha b hb hpath
      exact eq_of_mem_of_pathEq hP (hmem a ha) (hmem b hb) hpath
    rw [mem_dedupeByPath_iff huniq]
    simp only [List.mem_append]
    rw [mem_getLastN_anchors_iff hV hT hP, mem_getLastN_anchors_iff hV hT hP,
      mem_getLastN_anchors_iff hV hT hP, mem_getLastN_anchors_iff hV hT hP]
    unfold specKeeps
    constructor
    · intro h
      have hfS : f ∈ S := by
        rcases h with (((h1 | h1) | h1) | h1) <;> exact h1.1.1
      tauto
    · rintro ⟨hfS, h⟩
      tauto

/-! ### Helpers for size bounds and idempotence -/

theorem keep_pairwise_pathNe (S : List BackupFile) (P : RetentionPolicy) :
    (determineFilesToKeep S P).Pairwise pathNe := by
  unfold determineFilesToKeep
  by_cases he : S.isEmpty
  · rw [if_pos he]
    have hS : S = [] := List.isEmpty_iff.mp he
    subst hS
    exact List.Pairwise.nil
  · rw [if_neg he]
    exact (dedupeByPath_facts _).1

theorem pairwise_timeNe_of_sub {S K : List BackupFile} (hT : S.Pairwise timeNe)
    (hnd : K.Nodup) (hsub : ∀ f ∈ K, f ∈ S) : K.Pairwise timeNe := by
  induction K with
  | nil => exact List.Pairwise.nil
  | cons x rest ih =>
    rw [List.pairwise_cons]
    obtain ⟨hx, hrest⟩ := List.nodup_cons.mp hnd
    refine ⟨?_, ih hrest (fun f hf => hsub f (List.mem_cons_of_mem _ hf))⟩
    intro u hu
    refine hT.forall (fun a b h => Ne.symm h) (hsub x (List.mem_cons_self _ _))
      (hsub u (List.mem_cons_of_mem _ hu)) ?_
    intro hc
    exact hx (hc ▸ hu)

theorem isAnchorIn_unique {pf : GoTime → GoTime} {l : List BackupFile} {a b : BackupFile}
    (ha : isAnchorIn pf l a) (hb : isAnchorIn pf l b)
    (hk : dateKey (pf a.time) = dateKey (pf b.time)) : a = b := by
  by_contra hne
  have h1 := ha.2 b hb.1 hk.symm (fun hc => hne hc.symm)
  have h2 := hb.2 a ha.1 hk hne
  rw [timeBeforeB_true] at h1 h2
  omega

/-- Every candidate's period group has a (strict-maximum) anchor. -/
theorem exists_anchor_of_mem {pf : GoTime → GoTime} {S : List BackupFile} {u : BackupFile}
    (hT : S.Pairwise timeNe) (hV : ∀ g ∈ S, g.time.ValidT) (hu : u ∈ S) :
    ∃ a, isAnchorIn pf S a ∧ dateKey (pf a.time) = dateKey (pf u.time) ∧
      (u = a ∨ timeBeforeB u.time a.time = true) := by
  have inv := @anchInv_foldl pf S [] [] (by simpa using hT) (by simpa using hV)
    (anchInv_nil pf)
  simp only [List.nil_append] at inv
  obtain ⟨v, hv⟩ := (inv.domIff (dateKey (pf u.time))).mpr ⟨u, hu, rfl⟩
  obtain ⟨hvS, hvk, hvmax⟩ := inv.maxProp _ v hv
  refine ⟨v, ⟨hvS, fun w hw hwk hwne => hvmax w hw (hwk.trans hvk) hwne⟩, hvk, ?_⟩
  by_cases hue : u = v
  · exact Or.inl hue
  · exact Or.inr (hvmax u hu rfl hue)

theorem countP_eq_card_filter_toFinset {l : List BackupFile} (hnd : l.Nodup)
    (p : BackupFile → Bool) :
    l.countP p = (l.toFinset.filter (fun x => p x = true)).card := by
  rw [List.countP_eq_length_filter]
  rw [← List.toFinset_card_of_nodup (hnd.filter p)]
  congr 1
  ext x
  simp [List.mem_toFinset, List.mem_filter]

/-- Selection survives restriction to the keep-set: an anchor selected
from `S` is still an anchor among any subset containing it, and the
anchors above it only thin out. -/
theorem specSelected_mono {S K : List BackupFile} {pf : GoTime → GoTime} {n : Int}
    {f : BackupFile}
    (hTS : S.Pairwise timeNe) (hVS : ∀ g ∈ S, g.time.ValidT)
    (hndK : K.Nodup) (hsub : ∀ u ∈ K, u ∈ S) (hf : f ∈ K)
    (hsel : specSelected S pf n f) : specSelected K pf n f := by
  obtain ⟨⟨hfS, hfmax⟩, hn, hcnt⟩ := hsel
  refine ⟨⟨hf, fun u hu huk hune => hfmax u (hsub u hu) huk hune⟩, hn, ?_⟩
  have hndS : S.Nodup := nodup_of_pairwise_timeNe hTS
  rw [countP_eq_card_filter_toFinset hndK]
  rw [countP_eq_card_filter_toFinset hndS] at hcnt
  have hex : ∀ u, ∃ a, u ∈ K →
      (isAnchorIn pf S a ∧ dateKey (pf a.time) = dateKey (pf u.time) ∧
        (u = a ∨ timeBeforeB u.time a.time = true)) := by
    intro u
    by_cases hu : u ∈ K
    · obtain ⟨a, ha⟩ := @exists_anchor_of_mem pf _ _ hTS hVS (hsub u hu)
      exact ⟨a, fun _ => ha⟩
    · exact ⟨u, fun hc => absurd hc hu⟩
  obtain ⟨φ, hφ⟩ := Classical.axiomOfChoice hex
  have hcard : (K.toFinset.filter
        (fun x => (decide (isAnchorIn pf K x) && timeBeforeB f.time x.time) = true)).card ≤
      (S.toFinset.filter
        (fun x => (decide (isAnchorIn pf S x) && timeBeforeB f.time x.time) = true)).card := by
    apply Finset.card_le_card_of_injOn φ
    · intro x hx
      rw [Finset.mem_filter, List.mem_toFinset] at hx ⊢
      obtain ⟨hxK, hxp⟩ := hx
      simp only [Bool.and_eq_true, decide_eq_true_eq] at hxp
      obtain ⟨hxa, hxb⟩ := hxp
      obtain ⟨ha, hak, hor⟩ := hφ x hxK
      refine ⟨ha.1, ?_⟩
      simp only [Bool.and_eq_true, decide_eq_true_eq]
      refine ⟨ha, ?_⟩
      rcases hor with heq | hlt
      · rw [← heq]
        exact hxb
      · exact timeBeforeB_trans hxb hlt
    · intro x1 hx1 x2 hx2 heq
      rw [Finset.coe_filter, Set.mem_setOf_eq] at hx1 hx2
      obtain ⟨hx1K, hx1p⟩ := hx1
      obtain ⟨hx2K, hx2p⟩ := hx2
      rw [List.mem_toFinset] at hx1K hx2K
      simp only [Bool.and_eq_true, decide_eq_true_eq] at hx1p hx2p
      obtain ⟨ha1, hak1, _⟩ := hφ x1 hx1K
      obtain ⟨ha2, hak2, _⟩ := hφ x2 hx2K
      have hkk : dateKey (pf x1.time) = dateKey (pf x2.time) := by
        rw [← hak1, ← hak2, heq]
      exact isAnchorIn_unique hx1p.1 hx2p.1 hkk
  omega

theorem anchorStep_length_ge (pf : GoTime → GoTime)
    (m : List ((Nat × Nat × Nat) × BackupFile)) (x : BackupFile) :
    m.length ≤ (anchorStep pf m x).length := by
  unfold anchorStep
  rcases hl : lookupA (dateKey (pf x.time)) m with _ | ex
  · simp only [hl]
    exact (updA_length_le _ _ _).2
  · simp only [hl]
    by_cases hc : timeBeforeB ex.time x.time = true
    · rw [if_pos hc]
      exact (updA_length_le _ _ _).2
    · rw [if_neg hc]

theorem getAnchors_ne_nil {pf : GoTime → GoTime} {l : List BackupFile} (hl : l ≠ []) :
    getAnchors l pf ≠ [] := by
  unfold getAnchors
  rcases l with _ | ⟨x, rest⟩
  · exact absurd rfl hl
  · simp only [List.foldl_cons]
    intro hc
    have hlen : ∀ (xs : List BackupFile) (m : List ((Nat × Nat × Nat) × BackupFile)),
        m.length ≤ (xs.foldl (anchorStep pf) m).length := by
      intro xs
      induction xs with
      | nil =>
        intro m
        exact le_refl _
      | cons y ys ih =>
        intro m
        simp only [List.foldl_cons]
        exact le_trans (anchorStep_length_ge pf m y) (ih _)
    have h1 := hlen rest (anchorStep pf [] x)
    have h2 : 1 ≤ (anchorStep pf [] x).length := by
      unfold anchorStep lookupA updA
      simp
    have h3 := congrArg List.length hc
    rw [List.length_map, List.length_nil] at h3
    omega

/-! ### Claim theorems for the retention keep-set -/

/--
C1: for every candidate list with valid, pairwise-distinct timestamps
and distinct paths, `determineFilesToKeep` returns exactly the keep-set
of the specification's algorithm (`specKeeps`, built from
`isAnchorIn` = group by period-start key keeping the strictly latest
candidate, and `specSelected` = the last `policy.g` anchors sorted
ascending by timestamp, read extensionally), deduplicated by file
path.  (With tied timestamps "the latest candidate of a group" is not
well defined; real candidate sets, parsed from distinct filenames of
one directory, satisfy the hypotheses.)
-/
theorem determineFilesToKeep_matches_spec (S : List BackupFile) (P : RetentionPolicy)
    (p : String) (hV : ∀ g ∈ S, g.time.ValidT) (hT : S.Pairwise timeNe)
    (hP : S.Pairwise pathNe) :
    p ∈ (determineFilesToKeep S P).map BackupFile.path ↔
      ∃ f ∈ S, f.path = p ∧ specKeeps S P f := by
  rw [List.mem_map]
  constructor
  · rintro ⟨f, hf, rfl⟩
    obtain ⟨h1, h2⟩ := (mem_keep_iff hV hT hP).mp hf
    exact ⟨f, h1, rfl, h2⟩
  · rintro ⟨f, hfS, rfl, hsel⟩
    exact ⟨f, (mem_keep_iff hV hT hP).mpr ⟨hfS, hsel⟩, rfl⟩

/-- Witness for `determineFilesToKeep_matches_spec` on two archives a
day apart with a daily-only policy. -/
theorem determineFilesToKeep_matches_spec_witness :
    (∀ g ∈ [BackupFile.mk "a" ⟨2024, 1, 1, 10, 0, 0⟩, BackupFile.mk "b" ⟨2024, 1, 2, 11, 0, 0⟩],
      g.time.ValidT) ∧
    ("b" ∈ (determineFilesToKeep
        [BackupFile.mk "a" ⟨2024, 1, 1, 10, 0, 0⟩, BackupFile.mk "b" ⟨2024, 1, 2, 11, 0, 0⟩]
        ⟨1, 0, 0, 0⟩).map BackupFile.path ↔
      ∃ f ∈ [BackupFile.mk "a" ⟨2024, 1, 1, 10, 0, 0⟩, BackupFile.mk "b" ⟨2024, 1, 2, 11, 0, 0⟩],
        f.path = "b" ∧ specKeeps
          [BackupFile.mk "a" ⟨2024, 1, 1, 10, 0, 0⟩, BackupFile.mk "b" ⟨2024, 1, 2, 11, 0, 0⟩]
          ⟨1, 0, 0, 0⟩ f) :=
  ⟨by decide, determineFilesToKeep_matches_spec _ _ "b" (by decide) (by decide) (by decide)⟩

/--
C3: for a non-empty candidate set and a policy with non-negative
counters (the data-model invariant of `RetentionPolicy`), the keep-set
has pairwise-distinct paths, its size is at most
`daily + weekly + monthly + yearly`, and it is non-empty as soon as
one of the four counters is positive.
-/
theorem keep_size_bounds (S : List BackupFile) (P : RetentionPolicy) (hS : S ≠ [])
    (h0 : 0 ≤ P.daily ∧ 0 ≤ P.weekly ∧ 0 ≤ P.monthly ∧ 0 ≤ P.yearly) :
    ((determineFilesToKeep S P).map BackupFile.path).Nodup ∧
      ((determineFilesToKeep S P).length : Int) ≤ P.daily + P.weekly + P.monthly + P.yearly ∧
      ((0 < P.daily ∨ 0 < P.weekly ∨ 0 < P.monthly ∨ 0 < P.yearly) →
        determineFilesToKeep S P ≠ []) := by
  have hne : ¬ S.isEmpty = true := by
    rw [List.isEmpty_iff]
    exact hS
  unfold determineFilesToKeep
  rw [if_neg hne]
  simp only
  have hsort_ne : sortByTime S ≠ [] := by
    intro hc
    have hlen := (sortByTime_perm S).length_eq
    rw [hc] at hlen
    simp only [List.length_nil] at hlen
    exact hS (List.eq_nil_of_length_eq_zero hlen.symm)
  refine ⟨?_, ?_, ?_⟩
  · have hpw := (dedupeByPath_facts (getLastN (getAnchors (sortByTime S) dailyStart) P.daily ++
      getLastN (getAnchors (sortByTime S) weeklyStart) P.weekly ++
      getLastN (getAnchors (sortByTime S) monthlyStart) P.monthly ++
      getLastN (getAnchors (sortByTime S) yearlyStart) P.yearly)).1
    exact List.pairwise_map.mpr hpw
  · have hlen := dedupeByPath_length_le (getLastN (getAnchors (sortByTime S) dailyStart) P.daily ++
      getLastN (getAnchors (sortByTime S) weeklyStart) P.weekly ++
      getLastN (getAnchors (sortByTime S) monthlyStart) P.monthly ++
      getLastN (getAnchors (sortByTime S) yearlyStart) P.yearly)
    simp only [List.length_append] at hlen
    have l1 := getLastN_length_le_n (l := getAnchors (sortByTime S) dailyStart) h0.1
    have l2 := getLastN_length_le_n (l := getAnchors (sortByTime S) weeklyStart) h0.2.1
    have l3 := getLastN_length_le_n (l := getAnchors (sortByTime S) monthlyStart) h0.2.2.1
    have l4 := getLastN_length_le_n (l := getAnchors (sortByTime S) yearlyStart) h0.2.2.2
    omega
  · intro hpos
    apply dedupeByPath_ne_nil
    intro hc
    obtain ⟨h123, h4⟩ := List.append_eq_nil.mp hc
    obtain ⟨h12, h3⟩ := List.append_eq_nil.mp h123
    obtain ⟨h1, h2⟩ := List.append_eq_nil.mp h12
    rcases hpos with h | h | h | h
    · exact getLastN_ne_nil (getAnchors_ne_nil hsort_ne) h h1
    · exact getLastN_ne_nil (getAnchors_ne_nil hsort_ne) h h2
    · exact getLastN_ne_nil (getAnchors_ne_nil hsort_ne) h h3
    · exact getLastN_ne_nil (getAnchors_ne_nil hsort_ne) h h4

/-- Witness for `keep_size_bounds` on a two-archive candidate set. -/
theorem keep_size_bounds_witness :
    ([BackupFile.mk "a" ⟨2024, 1, 1, 10, 0, 0⟩, BackupFile.mk "b" ⟨2024, 1, 2, 11, 0, 0⟩] ≠
      ([] : List BackupFile)) ∧
    (((determineFilesToKeep
        [BackupFile.mk "a" ⟨2024, 1, 1, 10, 0, 0⟩, BackupFile.mk "b" ⟨2024, 1, 2, 11, 0, 0⟩]
        ⟨2, 1, 1, 1⟩).map BackupFile.path).Nodup ∧
      ((determineFilesToKeep
        [BackupFile.mk "a" ⟨2024, 1, 1, 10, 0, 0⟩, BackupFile.mk "b" ⟨2024, 1, 2, 11, 0, 0⟩]
        ⟨2, 1, 1, 1⟩).length : Int) ≤ 2 + 1 + 1 + 1 ∧
      ((0 < (2 : Int) ∨ 0 < (1 : Int) ∨ 0 < (1 : Int) ∨ 0 < (1 : Int)) →
        determineFilesToKeep
          [BackupFile.mk "a" ⟨2024, 1, 1, 10, 0, 0⟩, BackupFile.mk "b" ⟨2024, 1, 2, 11, 0, 0⟩]
          ⟨2, 1, 1, 1⟩ ≠ [])) :=
  ⟨by decide, keep_size_bounds _ ⟨2, 1, 1, 1⟩ (by decide) (by decide)⟩

/--
C4 counterexample: two archives on the same calendar day with policy
`{daily := 1, weekly := 1, monthly := 1, yearly := 1}`.  The candidate
count (2) is strictly below the policy sum (4), yet the two archives
collapse to a single anchor in all four granularities, so the earlier
archive is NOT in the keep-set — retention deletes it.
-/
theorem fewer_than_sum_still_deletes :
    (([BackupFile.mk "a" ⟨2024, 1, 1, 10, 0, 0⟩,
        BackupFile.mk "b" ⟨2024, 1, 1, 11, 0, 0⟩].length : Int) <
      (1 : Int) + 1 + 1 + 1) ∧
    ¬ (∀ f ∈ [BackupFile.mk "a" ⟨2024, 1, 1, 10, 0, 0⟩,
        BackupFile.mk "b" ⟨2024, 1, 1, 11, 0, 0⟩],
        f ∈ determineFilesToKeep
          [BackupFile.mk "a" ⟨2024, 1, 1, 10, 0, 0⟩,
            BackupFile.mk "b" ⟨2024, 1, 1, 11, 0, 0⟩] ⟨1, 1, 1, 1⟩) := by
  constructor
  · decide
  · decide

/--
C4 amended: if the candidates lie on pairwise-distinct calendar days
(so no two collapse into one anchor) and their number is at most
`policy.daily`, retention deletes nothing: every candidate is in the
keep-set.
-/
theorem keep_all_of_distinct_days (S : List BackupFile) (P : RetentionPolicy) (f : BackupFile)
    (hV : ∀ g ∈ S, g.time.ValidT) (hP : S.Pairwise pathNe)
    (hdays : S.Pairwise (fun a b => dateKey (dailyStart a.time) ≠ dateKey (dailyStart b.time)))
    (hcount : (S.length : Int) ≤ P.daily) (hf : f ∈ S) :
    f ∈ determineFilesToKeep S P := by
  have hT : S.Pairwise timeNe := hdays.imp (fun h hc => h (by rw [hc]))
  apply (mem_keep_iff hV hT hP).mpr
  refine ⟨hf, Or.inl ?_⟩
  have hanch : isAnchorIn dailyStart S f := by
    refine ⟨hf, ?_⟩
    intro u hu huk hune
    exact absurd huk (hdays.forall (fun x y h => Ne.symm h) hu hf hune)
  have hlenpos : 1 ≤ S.length := List.length_pos.mpr (by intro hc; rw [hc] at hf; simp at hf)
  refine ⟨hanch, by omega, ?_⟩
  have hcnt : S.countP
      (fun u => decide (isAnchorIn dailyStart S u) && timeBeforeB f.time u.time) < S.length := by
    apply countP_lt_length_of_mem_not _ hf
    show (decide (isAnchorIn dailyStart S f) && timeBeforeB f.time f.time) = false
    rw [timeBeforeB_self]
    exact Bool.and_false _
  omega

/-- Witness for `keep_all_of_distinct_days`. -/
theorem keep_all_of_distinct_days_witness :
    BackupFile.mk "a" ⟨2024, 1, 1, 10, 0, 0⟩ ∈ determineFilesToKeep
      [BackupFile.mk "a" ⟨2024, 1, 1, 10, 0, 0⟩, BackupFile.mk "b" ⟨2024, 1, 2, 11, 0, 0⟩]
      ⟨2, 0, 0, 0⟩ :=
  keep_all_of_distinct_days _ ⟨2, 0, 0, 0⟩ _ (by decide) (by decide) (by decide) (by decide)
    (by decide)

/--
C5: retention is idempotent.  If `K = determineFilesToKeep S P`, then
re-running `determineFilesToKeep K P` keeps exactly the paths of `K` —
a second run over the surviving archives deletes nothing.
-/
theorem retention_idempotent (S : List BackupFile) (P : RetentionPolicy)
    (hV : ∀ g ∈ S, g.time.ValidT) (hT : S.Pairwise timeNe) (hP : S.Pairwise pathNe) :
    ((determineFilesToKeep (determineFilesToKeep S P) P).map BackupFile.path).toFinset =
      ((determineFilesToKeep S P).map BackupFile.path).toFinset := by
  have hPK := keep_pairwise_pathNe S P
  have hndK : (determineFilesToKeep S P).Nodup := nodup_of_pairwise_pathNe hPK
  have hsubK : ∀ u ∈ determineFilesToKeep S P, u ∈ S := fun u hu => mem_keep_sub hu
  have hVK : ∀ g ∈ determineFilesToKeep S P, g.time.ValidT := fun g hg => hV g (hsubK g hg)
  have hTK := pairwise_timeNe_of_sub hT hndK hsubK
  ext p
  simp only [List.mem_toFinset, List.mem_map]
  constructor
  · rintro ⟨f, hf, rfl⟩
    exact ⟨f, mem_keep_sub hf, rfl⟩
  · rintro ⟨f, hfK, rfl⟩
    refine ⟨f, ?_, rfl⟩
    apply (mem_keep_iff hVK hTK hPK).mpr
    refine ⟨hfK, ?_⟩
    obtain ⟨hfS, hsel⟩ := (mem_keep_iff hV hT hP).mp hfK
    unfold specKeeps at hsel ⊢
    rcases hsel with h | h | h | h
    · exact Or.inl (specSelected_mono hT hV hndK hsubK hfK h)
    · exact Or.inr (Or.inl (specSelected_mono hT hV hndK hsubK hfK h))
    · exact Or.inr (Or.inr (Or.inl (specSelected_mono hT hV hndK hsubK hfK h)))
    · exact Or.inr (Or.inr (Or.inr (specSelected_mono hT hV hndK hsubK hfK h)))

/-- Witness for `retention_idempotent`. -/
theorem retention_idempotent_witness :
    ((determineFilesToKeep (determineFilesToKeep
        [BackupFile.mk "a" ⟨2024, 1, 1, 10, 0, 0⟩, BackupFile.mk "b" ⟨2024, 1, 2, 11, 0, 0⟩]
        ⟨1, 1, 0, 0⟩) ⟨1, 1, 0, 0⟩).map BackupFile.path).toFinset =
      ((determineFilesToKeep
        [BackupFile.mk "a" ⟨2024, 1, 1, 10, 0, 0⟩, BackupFile.mk "b" ⟨2024, 1, 2, 11, 0, 0⟩]
        ⟨1, 1, 0, 0⟩).map BackupFile.path).toFinset :=
  retention_idempotent _ ⟨1, 1, 0, 0⟩ (by decide) (by decide) (by decide)

theorem specSelected_perm {S1 S2 : List BackupFile} {pf : GoTime → GoTime} {n : Int}
    {f : BackupFile} (hp : List.Perm S1 S2) :
    specSelected S1 pf n f ↔ specSelected S2 pf n f := by
  unfold specSelected
  rw [isAnchorIn_perm hp]
  have hcnt : S1.countP (fun u => decide (isAnchorIn pf S1 u) && timeBeforeB f.time u.time) =
      S2.countP (fun u => decide (isAnchorIn pf S2 u) && timeBeforeB f.time u.time) := by
    rw [hp.countP_eq]
    apply List.countP_congr
    intro x hx
    simp only [Bool.and_eq_true, decide_eq_true_eq]
    rw [isAnchorIn_perm hp]
  rw [hcnt]

/--
C10: order independence of the retention decision.  For candidate
lists with valid, pairwise-distinct timestamps and distinct paths, the
set of kept paths is the same for every permutation of the input list:
despite the unstable in-place sorting and the arbitrary Go map
iteration order, the keep-set depends only on the set of candidates
and the policy.
-/
theorem keep_order_independent (S1 S2 : List BackupFile) (P : RetentionPolicy)
    (hperm : List.Perm S1 S2) (hV : ∀ g ∈ S1, g.time.ValidT) (hT : S1.Pairwise timeNe)
    (hP : S1.Pairwise pathNe) :
    ((determineFilesToKeep S1 P).map BackupFile.path).toFinset =
      ((determineFilesToKeep S2 P).map BackupFile.path).toFinset := by
  have hV2 : ∀ g ∈ S2, g.time.ValidT := fun g hg => hV g (hperm.mem_iff.mpr hg)
  have hT2 := (hperm.pairwise_iff (fun h => Ne.symm h)).mp hT
  have hP2 := (hperm.pairwise_iff (fun h => Ne.symm h)).mp hP
  ext p
  simp only [List.mem_toFinset, List.mem_map]
  constructor
  · rintro ⟨f, hf, rfl⟩
    refine ⟨f, ?_, rfl⟩
    obtain ⟨h1, h2⟩ := (mem_keep_iff hV hT hP).mp hf
    apply (mem_keep_iff hV2 hT2 hP2).mpr
    refine ⟨hperm.mem_iff.mp h1, ?_⟩
    unfold specKeeps at h2 ⊢
    rcases h2 with h | h | h | h
    · exact Or.inl ((specSelected_perm hperm).mp h)
    · exact Or.inr (Or.inl ((specSelected_perm hperm).mp h))
    · exact Or.inr (Or.inr (Or.inl ((specSelected_perm hperm).mp h)))
    · exact Or.inr (Or.inr (Or.inr ((specSelected_perm hperm).mp h)))
  · rintro ⟨f, hf, rfl⟩
    refine ⟨f, ?_, rfl⟩
    obtain ⟨h1, h2⟩ := (mem_keep_iff hV2 hT2 hP2).mp hf
    apply (mem_keep_iff hV hT hP).mpr
    refine ⟨hperm.mem_iff.mpr h1, ?_⟩
    unfold specKeeps at h2 ⊢
    rcases h2 with h | h | h | h
    · exact Or.inl ((specSelected_perm hperm).mpr h)
    · exact Or.inr (Or.inl ((specSelected_perm hperm).mpr h))
    · exact Or.inr (Or.inr (Or.inl ((specSelected_perm hperm).mpr h)))
    · exact Or.inr (Or.inr (Or.inr ((specSelected_perm hperm).mpr h)))

/-- Witness for `keep_order_independent` on a reversed two-element list. -/
theorem keep_order_independent_witness :
    ((determineFilesToKeep
        [BackupFile.mk "a" ⟨2024, 1, 1, 10, 0, 0⟩, BackupFile.mk "b" ⟨2024, 1, 2, 11, 0, 0⟩]
        ⟨1, 0, 0, 0⟩).map BackupFile.path).toFinset =
      ((determineFilesToKeep
        [BackupFile.mk "b" ⟨2024, 1, 2, 11, 0, 0⟩, BackupFile.mk "a" ⟨2024, 1, 1, 10, 0, 0⟩]
        ⟨1, 0, 0, 0⟩).map BackupFile.path).toFinset :=
  keep_order_independent _ _ ⟨1, 0, 0, 0⟩ (by decide) (by decide) (by decide) (by decide)

/-! ### Candidate enumeration and deletion (`getBackupFiles`, `ApplyRetention`) -/

/-- A directory entry as returned by `os.ReadDir`. -/
structure DirEntry where
  name : String
  isDir : Bool
deriving DecidableEq, Repr

/-- The extension strip of `getBackupFiles`:
`if idx := strings.LastIndex(entryName, "."); idx != -1 { baseName = entryName[:idx] }`. -/
def stripLastExt (s : String) : String :=
  match s.toList.reverse.dropWhile (fun c => c ≠ '.') with
  | [] => s
  | _ :: rest => ⟨rest.reverse⟩

/-- `filepath.Join(dir, name)` for a clean, non-empty directory path. -/
def joinPath (dir name : String) : String := dir ++ "/" ++ name

/-- `strings.HasPrefix` on the character-list view of the two strings
(kernel-computable, unlike `String.startsWith`'s byte-position loop). -/
def chListPref : List Char → List Char → Bool
  | [], _ => true
  | _ :: _, [] => false
  | p :: ps, c :: cs => p == c && chListPref ps cs

/-- `strings.HasPrefix pre s` of the Go standard library. -/
def strHasPref (pre s : String) : Bool := chListPref pre.toList s.toList

/--
`getBackupFiles` of `retention/policy.go`: skip directories, keep
entries whose extension-stripped name starts with `backupName ++ "-"`
and whose embedded timestamp parses.

`parse` models `utils.ParseDateFromFilename`.  Modelled from the spec:
that function's source file is not part of this repository snapshot;
per §4.4 step 1 it attempts to parse a timestamp embedded in the
filename and fails (`none`) on filenames without one, so it enters the
model as an arbitrary function `String → Option GoTime`.
-/
def getBackupFiles (parse : String → Option GoTime) (entries : List DirEntry)
    (dir backupName : String) : List BackupFile :=
  entries.filterMap (fun e =>
    if e.isDir then none
    else if !strHasPref (backupName ++ "-") (stripLastExt e.name) then none
    else match parse e.name with
      | none => none
      | some t => some ⟨joinPath dir e.name, t⟩)

/-- The deletion pass of `ApplyRetention`: every enumerated file whose
path is not among the keep-set paths is removed.  (`ApplyRetention`
iterates the slice that `determineFilesToKeep` sorted in place; the
set of deleted paths is unaffected by that reordering.) -/
def retentionDeletes (files : List BackupFile) (policy : RetentionPolicy) : List String :=
  (files.filter (fun f =>
    !((determineFilesToKeep files policy).any (fun keep => keep.path == f.path)))).map
    (fun f => f.path)

/-- `ApplyRetention` of `retention/policy.go`, modelled as the list of
paths it removes: it joins `backupDir` with `subdirectory`, enumerates
that directory (`entries` abstracts its contents; a non-existent
directory is the empty listing) and deletes every non-kept candidate. -/
def applyRetentionDeletes (parse : String → Option GoTime) (entries : List DirEntry)
    (backupDir subdirectory backupName : String) (policy : RetentionPolicy) : List String :=
  let files := getBackupFiles parse entries (joinPath backupDir subdirectory) backupName
  retentionDeletes files policy

theorem joinPath_inj {dir a b : String} (h : joinPath dir a = joinPath dir b) : a = b := by
  unfold joinPath at h
  have hd := congrArg String.data h
  simp only [String.data_append] at hd
  rw [List.append_assoc, List.append_assoc] at hd
  have := List.append_cancel_left hd
  have := List.append_cancel_left this
  exact String.ext this

theorem mem_getBackupFiles_path {parse : String → Option GoTime} {entries : List DirEntry}
    {dir name p : String} :
    p ∈ (getBackupFiles parse entries dir name).map BackupFile.path ↔
      ∃ e ∈ entries, e.isDir = false ∧
        strHasPref (name ++ "-") (stripLastExt e.name) = true ∧
        (∃ t, parse e.name = some t) ∧ p = joinPath dir e.name := by
  unfold getBackupFiles
  rw [List.mem_map]
  constructor
  · rintro ⟨f, hf, rfl⟩
    obtain ⟨e, he, hfe⟩ := List.mem_filterMap.mp hf
    by_cases hdir : e.isDir
    · rw [if_pos hdir] at hfe
      exact Option.noConfusion hfe
    · rw [if_neg hdir] at hfe
      by_cases hpref : strHasPref (name ++ "-") (stripLastExt e.name) = true
      · rw [hpref] at hfe
        simp only [Bool.not_true, Bool.false_eq_true, if_false] at hfe
        rcases hparse : parse e.name with _ | t
        · rw [hparse] at hfe
          exact Option.noConfusion hfe
        · rw [hparse] at hfe
          obtain rfl : BackupFile.mk (joinPath dir e.name) t = f := by injection hfe
          exact ⟨e, he, Bool.eq_false_iff.mpr hdir, hpref, ⟨t, hparse⟩, rfl⟩
      · rw [Bool.not_eq_true] at hpref
        rw [hpref] at hfe
        simp only [Bool.not_false, if_true] at hfe
        exact Option.noConfusion hfe
  · rintro ⟨e, he, hdir, hpref, ⟨t, hparse⟩, rfl⟩
    refine ⟨⟨joinPath dir e.name, t⟩, ?_, rfl⟩
    apply List.mem_filterMap.mpr
    refine ⟨e, he, ?_⟩
    rw [if_neg (by rw [hdir]; exact Bool.false_ne_true), hpref]
    simp only [Bool.not_true, Bool.false_eq_true, if_false]
    rw [hparse]

theorem retentionDeletes_sub {files : List BackupFile} {policy : RetentionPolicy} {p : String}
    (h : p ∈ retentionDeletes files policy) : p ∈ files.map BackupFile.path := by
  unfold retentionDeletes at h
  rw [List.mem_map] at h ⊢
  obtain ⟨f, hf, rfl⟩ := h
  exact ⟨f, (List.mem_filter.mp hf).1, rfl⟩

theorem keep_zero_policy (S : List BackupFile) : determineFilesToKeep S ⟨0, 0, 0, 0⟩ = [] := by
  unfold determineFilesToKeep
  by_cases he : S.isEmpty
  · rw [if_pos he]
    exact List.isEmpty_iff.mp he
  · rw [if_neg he]
    simp only
    have hz : ∀ l : List BackupFile, getLastN l (0 : Int) = [] := by
      intro l
      unfold getLastN
      rw [if_pos (le_refl (0 : Int))]
    rw [hz, hz, hz, hz]
    rfl

/--
C6: under the all-zero policy the keep-set is empty, so every
recognized candidate (prefix matches and timestamp parses) is deleted;
and an entry whose embedded timestamp fails to parse is not a
candidate and is never deleted, under any policy.
-/
theorem zero_policy_deletes_all_and_unparseable_untouched
    (parse : String → Option GoTime) (entries : List DirEntry)
    (backupDir subdirectory backupName : String) (P : RetentionPolicy) (e : DirEntry)
    (he : e ∈ entries) :
    (∀ f ∈ getBackupFiles parse entries (joinPath backupDir subdirectory) backupName,
      f.path ∈ applyRetentionDeletes parse entries backupDir subdirectory backupName
        ⟨0, 0, 0, 0⟩) ∧
    (parse e.name = none →
      joinPath (joinPath backupDir subdirectory) e.name ∉
        (getBackupFiles parse entries (joinPath backupDir subdirectory) backupName).map
          BackupFile.path ∧
      joinPath (joinPath backupDir subdirectory) e.name ∉
        applyRetentionDeletes parse entries backupDir subdirectory backupName P) := by
  constructor
  · intro f hf
    unfold applyRetentionDeletes retentionDeletes
    simp only
    rw [keep_zero_policy]
    rw [List.mem_map]
    refine ⟨f, ?_, rfl⟩
    rw [List.mem_filter]
    exact ⟨hf, by simp⟩
  · intro hnone
    have hnotc : joinPath (joinPath backupDir subdirectory) e.name ∉
        (getBackupFiles parse entries (joinPath backupDir subdirectory) backupName).map
          BackupFile.path := by
      intro hc
      obtain ⟨e2, _, _, _, ⟨t, hp2⟩, hjoin⟩ := mem_getBackupFiles_path.mp hc
      have hname : e.name = e2.name := joinPath_inj hjoin
      rw [hname, hp2] at hnone
      exact Option.noConfusion hnone
    refine ⟨hnotc, ?_⟩
    intro hc
    exact hnotc (retentionDeletes_sub hc)

/-- Witness for `zero_policy_deletes_all_and_unparseable_untouched`. -/
theorem zero_policy_witness :
    (DirEntry.mk "other.txt" false ∈
      [DirEntry.mk "db-20240101.gz" false, DirEntry.mk "other.txt" false]) ∧
    ((∀ f ∈ getBackupFiles
        (fun s => if s = "db-20240101.gz" then some ⟨2024, 1, 1, 0, 0, 0⟩ else none)
        [DirEntry.mk "db-20240101.gz" false, DirEntry.mk "other.txt" false]
        (joinPath "/backups" "db") "db",
      f.path ∈ applyRetentionDeletes
        (fun s => if s = "db-20240101.gz" then some ⟨2024, 1, 1, 0, 0, 0⟩ else none)
        [DirEntry.mk "db-20240101.gz" false, DirEntry.mk "other.txt" false]
        "/backups" "db" "db" ⟨0, 0, 0, 0⟩) ∧
    ((fun s => if s = "db-20240101.gz" then some (GoTime.mk 2024 1 1 0 0 0) else none)
        "other.txt" = none →
      joinPath (joinPath "/backups" "db") "other.txt" ∉
        (getBackupFiles
          (fun s => if s = "db-20240101.gz" then some ⟨2024, 1, 1, 0, 0, 0⟩ else none)
          [DirEntry.mk "db-20240101.gz" false, DirEntry.mk "other.txt" false]
          (joinPath "/backups" "db") "db").map BackupFile.path ∧
      joinPath (joinPath "/backups" "db") "other.txt" ∉
        applyRetentionDeletes
          (fun s => if s = "db-20240101.gz" then some ⟨2024, 1, 1, 0, 0, 0⟩ else none)
          [DirEntry.mk "db-20240101.gz" false, DirEntry.mk "other.txt" false]
          "/backups" "db" "db" ⟨1, 1, 1, 1⟩)) :=
  ⟨by decide, zero_policy_deletes_all_and_unparseable_untouched _ _ "/backups" "db" "db"
    ⟨1, 1, 1, 1⟩ (DirEntry.mk "other.txt" false) (by decide)⟩

/--
C7: prefix isolation.  An entry whose extension-stripped base name
does not start with `backupName ++ "-"` never enters the candidate
set, is never selected for keeping, and is never deleted by retention
for that backup name.
-/
theorem prefix_isolation (parse : String → Option GoTime) (entries : List DirEntry)
    (backupDir subdirectory backupName : String) (P : RetentionPolicy) (e : DirEntry)
    (he : e ∈ entries)
    (hpref : ¬ strHasPref (backupName ++ "-") (stripLastExt e.name) = true) :
    joinPath (joinPath backupDir subdirectory) e.name ∉
      (getBackupFiles parse entries (joinPath backupDir subdirectory) backupName).map
        BackupFile.path ∧
    joinPath (joinPath backupDir subdirectory) e.name ∉
      (determineFilesToKeep
        (getBackupFiles parse entries (joinPath backupDir subdirectory) backupName) P).map
        BackupFile.path ∧
    joinPath (joinPath backupDir subdirectory) e.name ∉
      applyRetentionDeletes parse entries backupDir subdirectory backupName P := by
  have hnotc : joinPath (joinPath backupDir subdirectory) e.name ∉
      (getBackupFiles parse entries (joinPath backupDir subdirectory) backupName).map
        BackupFile.path := by
    intro hc
    obtain ⟨e2, _, _, hpref2, _, hjoin⟩ := mem_getBackupFiles_path.mp hc
    have hname : e.name = e2.name := joinPath_inj hjoin
    rw [← hname] at hpref2
    exact hpref hpref2
  refine ⟨hnotc, ?_, ?_⟩
  · intro hc
    rw [List.mem_map] at hc
    obtain ⟨f, hf, hfp⟩ := hc
    apply hnotc
    rw [List.mem_map]
    exact ⟨f, mem_keep_sub hf, hfp⟩
  · intro hc
    exact hnotc (retentionDeletes_sub hc)

/-- Witness for `prefix_isolation`: `other-db-...` is untouched when
retention runs for backup name `db`. -/
theorem prefix_isolation_witness :
    ¬ strHasPref ("db" ++ "-") (stripLastExt "other-db-20240101.gz") = true ∧
    (joinPath (joinPath "/backups" "db") "other-db-20240101.gz" ∉
      (getBackupFiles (fun _ => some ⟨2024, 1, 1, 0, 0, 0⟩)
        [DirEntry.mk "other-db-20240101.gz" false]
        (joinPath "/backups" "db") "db").map BackupFile.path ∧
    joinPath (joinPath "/backups" "db") "other-db-20240101.gz" ∉
      (determineFilesToKeep
        (getBackupFiles (fun _ => some ⟨2024, 1, 1, 0, 0, 0⟩)
          [DirEntry.mk "other-db-20240101.gz" false]
          (joinPath "/backups" "db") "db") ⟨1, 1, 1, 1⟩).map BackupFile.path ∧
    joinPath (joinPath "/backups" "db") "other-db-20240101.gz" ∉
      applyRetentionDeletes (fun _ => some ⟨2024, 1, 1, 0, 0, 0⟩)
        [DirEntry.mk "other-db-20240101.gz" false] "/backups" "db" "db" ⟨1, 1, 1, 1⟩) :=
  ⟨by decide, prefix_isolation _ _ "/backups" "db" "db" ⟨1, 1, 1, 1⟩
    (DirEntry.mk "other-db-20240101.gz" false) (by decide) (by decide)⟩

/-! ### The backup pipeline executor (`ExecuteBackup`) and orchestrator (`main`) -/

/-- Outcomes of the effectful steps of one `ExecuteBackup` run; each
Boolean abstracts whether the corresponding operation succeeds (or,
for `sourceDir`/`command`/`hasPostHooks`, whether the configuration
sets that field). -/
structure ExecEnv where
  hasPreHooks : Bool
  preHooksOk : Bool
  sourceDir : Bool
  command : Bool
  mkTempOk : Bool
  copyDirOk : Bool
  execCmdOk : Bool
  copyOutOk : Bool
  mkdirOk : Bool
  compressorOk : Bool
  compressOk : Bool
  retentionOk : Bool
  hasPostHooks : Bool
  postHooksOk : Bool
deriving DecidableEq, Repr

/-- Observable outcome of one `ExecuteBackup` run: whether it returned
`nil`, and whether the retention stage and the post-hooks stage were
reached. -/
structure ExecResult where
  isOk : Bool
  ranRetention : Bool
  ranPostHooks : Bool
deriving DecidableEq, Repr

/-- The tail of `ExecuteBackup` after a successful capture: create the
destination directory, create the compressor, compress (each failure
returns the error), then apply retention (failure only warned) and run
post-hooks if configured (failure only warned), returning `nil`. -/
def afterCapture (e : ExecEnv) : ExecResult :=
  if !e.mkdirOk then ⟨false, false, false⟩
  else if !e.compressorOk then ⟨false, false, false⟩
  else if !e.compressOk then ⟨false, false, false⟩
  else ⟨true, true, e.hasPostHooks⟩

/-- `ExecuteBackup` of `backup/executor.go`: pre-hooks (warn only),
temp dir, capture (directory copy, or command execution plus staging
of the output file, or an invalid-configuration error), then
`afterCapture`. -/
def executeBackup (e : ExecEnv) : ExecResult :=
  if !e.mkTempOk then ⟨false, false, false⟩
  else if e.sourceDir then
    if !e.copyDirOk then ⟨false, false, false⟩
    else afterCapture e
  else if e.command then
    if !e.execCmdOk then ⟨false, false, false⟩
    else if !e.copyOutOk then ⟨false, false, false⟩
    else afterCapture e
  else ⟨false, false, false⟩

/-- "Capture fails" in the sense of the claim: the directory copy or
the configured command fails. -/
def captureFails (e : ExecEnv) : Bool :=
  (e.sourceDir && !e.copyDirOk) || (!e.sourceDir && e.command && !e.execCmdOk)

/-- "Compression fails" in the sense of the claim, compressor creation
included. -/
def compressionFails (e : ExecEnv) : Bool := !e.compressorOk || !e.compressOk

/-- The complete error condition of `ExecuteBackup`: temp-dir
creation, capture, output-file staging, invalid configuration,
destination-dir creation, compressor creation, or compression. -/
def errCond (e : ExecEnv) : Bool :=
  !e.mkTempOk ||
    (if e.sourceDir then !e.copyDirOk || (!e.mkdirOk || !e.compressorOk || !e.compressOk)
     else if e.command then
       !e.execCmdOk || !e.copyOutOk || (!e.mkdirOk || !e.compressorOk || !e.compressOk)
     else true)

/-- `main`'s orchestration loop: run every configured backup in order,
counting successes and failures; an error only increments the failure
count and the loop continues. -/
def runAll (envs : List ExecEnv) : Nat × Nat :=
  envs.foldl
    (fun acc e => if (executeBackup e).isOk then (acc.1 + 1, acc.2) else (acc.1, acc.2 + 1))
    (0, 0)

theorem countP_not_sum (xs : List ExecEnv) :
    xs.countP (fun x => (executeBackup x).isOk) +
      xs.countP (fun x => !(executeBackup x).isOk) = xs.length := by
  induction xs with
  | nil => rfl
  | cons x rest ih =>
    rw [List.countP_cons, List.countP_cons, List.length_cons]
    by_cases hx : (executeBackup x).isOk = true
    · rw [if_pos hx, if_neg (by simp [hx])]
      omega
    · have hx' : (executeBackup x).isOk = false := by
        rcases hb : (executeBackup x).isOk
        · rfl
        · exact absurd hb hx
      rw [if_neg (by simp [hx']), if_pos (by simp [hx'])]
      omega

theorem runAll_counts (envs : List ExecEnv) :
    (runAll envs).1 = envs.countP (fun x => (executeBackup x).isOk) ∧
      (runAll envs).2 = envs.countP (fun x => !(executeBackup x).isOk) ∧
      (runAll envs).1 + (runAll envs).2 = envs.length := by
  suffices h : ∀ (xs : List ExecEnv) (a b : Nat),
      xs.foldl (fun acc e =>
        if (executeBackup e).isOk then (acc.1 + 1, acc.2) else (acc.1, acc.2 + 1)) (a, b) =
      (a + xs.countP (fun x => (executeBackup x).isOk),
        b + xs.countP (fun x => !(executeBackup x).isOk)) by
    have h0 := h envs 0 0
    unfold runAll
    rw [h0]
    simp only [Nat.zero_add]
    exact ⟨by simp, by simp, countP_not_sum envs⟩
  intro xs
  induction xs with
  | nil =>
    intro a b
    simp
  | cons x rest ih =>
    intro a b
    simp only [List.foldl_cons, List.countP_cons]
    by_cases hx : (executeBackup x).isOk = true
    · rw [if_pos hx, ih, if_pos (by simp [hx]), if_neg (by simp [hx])]
      rw [Prod.ext_iff]
      constructor <;> simp <;> omega
    · have hx' : (executeBackup x).isOk = false := by
        rcases hb : (executeBackup x).isOk
        · rfl
        · exact absurd hb hx
      rw [if_neg hx, ih, if_neg (by simp [hx']), if_pos (by simp [hx'])]
      rw [Prod.ext_iff]
      constructor <;> simp <;> omega

/--
C8 counterexample: with every stage healthy except temp-directory
creation (`os.MkdirTemp` fails), `ExecuteBackup` returns an error even
though neither capture nor compression failed — so "returns an error
exactly when capture or compression fails" is false as stated.
-/
theorem executeBackup_error_beyond_capture_compress :
    (executeBackup ⟨false, true, true, false, false, true, true, true, true, true, true, true,
      false, true⟩).isOk = false ∧
    captureFails ⟨false, true, true, false, false, true, true, true, true, true, true, true,
      false, true⟩ = false ∧
    compressionFails ⟨false, true, true, false, false, true, true, true, true, true, true, true,
      false, true⟩ = false := by
  decide

/--
C8 amended: `ExecuteBackup` returns an error exactly when temp-dir
creation, capture (directory copy or command execution), output-file
staging, the configuration (neither source dir nor command), the
destination-dir creation, compressor creation, or compression fails;
on error the retention stage and the post-hooks of this backup do not
run; on success retention always runs and post-hooks run iff
configured, and pre-hook, retention and post-hook failures never
affect the result; and the orchestrator processes every configured
backup, counting each error as one failure.
-/
theorem executeBackup_pipeline_spec (e : ExecEnv) (r p q : Bool) (envs : List ExecEnv) :
    ((executeBackup e).isOk = false ↔ errCond e = true) ∧
    ((executeBackup e).isOk = false →
      (executeBackup e).ranRetention = false ∧ (executeBackup e).ranPostHooks = false) ∧
    ((executeBackup e).isOk = true →
      (executeBackup e).ranRetention = true ∧ (executeBackup e).ranPostHooks = e.hasPostHooks) ∧
    executeBackup { e with preHooksOk := r, retentionOk := p, postHooksOk := q } =
      executeBackup e ∧
    ((runAll envs).1 + (runAll envs).2 = envs.length ∧
      (runAll envs).2 = envs.countP (fun x => !(executeBackup x).isOk)) := by
  obtain ⟨b1, b2, sd, cmd, mt, cd, ec, co, mk, cr, cp, rt, hp, po⟩ := e
  obtain ⟨hc1, hc2, hc3⟩ := runAll_counts envs
  refine ⟨?_, ?_, ?_, ?_, hc3, hc2⟩ <;>
    cases sd <;> cases cmd <;> cases mt <;> cases cd <;> cases ec <;> cases co <;>
      cases mk <;> cases cr <;> cases cp <;>
      simp [executeBackup, afterCapture, errCond]

/-- Witness for `executeBackup_pipeline_spec` at an all-healthy
environment and a two-backup run with one failure. -/
theorem executeBackup_pipeline_spec_witness :
    ((executeBackup ⟨true, false, true, false, true, true, true, true, true, true, true, false,
        true, false⟩).isOk = true →
      (executeBackup ⟨true, false, true, false, true, true, true, true, true, true, true, false,
        true, false⟩).ranRetention = true ∧
      (executeBackup ⟨true, false, true, false, true, true, true, true, true, true, true, false,
        true, false⟩).ranPostHooks = (⟨true, false, true, false, true, true, true, true, true,
          true, true, false, true, false⟩ : ExecEnv).hasPostHooks) :=
  (executeBackup_pipeline_spec ⟨true, false, true, false, true, true, true, true, true, true,
    true, false, true, false⟩ true true true []).2.2.1

/-! ### The directory-copy exclusion matcher (`backup/directory.go`) -/

/-- Result of Go's `matchChunk`: a malformed pattern (`err`), a failed
match (`fail`), or a successful match leaving `rest` of the name. -/
inductive ChunkRes where
  | err : ChunkRes
  | fail : ChunkRes
  | ok (rest : List Char) : ChunkRes
deriving DecidableEq, Repr

/-- The chunk scanner of Go's `filepath.Match`: consume up to the next
unescaped `*` outside a character class. -/
def scanBody : Bool → List Char → List Char × List Char
  | _, [] => ([], [])
  | inrange, c :: cs =>
    if c = '\\' then
      match cs with
      | [] => ([c], [])
      | d :: ds =>
        let p := scanBody inrange ds
        (c :: d :: p.1, p.2)
    else if c = '*' ∧ ¬ inrange then ([], c :: cs)
    else if c = '[' then
      let p := scanBody true cs
      (c :: p.1, p.2)
    else if c = ']' then
      let p := scanBody false cs
      (c :: p.1, p.2)
    else
      let p := scanBody inrange cs
      (c :: p.1, p.2)

/-- `scanChunk` of Go's `filepath.Match`: strip leading `*`s, then one
chunk. -/
def stripStars : List Char → Bool × List Char
  | '*' :: rest => (true, (stripStars rest).2)
  | l => (false, l)

def scanChunk (pattern : List Char) : Bool × List Char × List Char :=
  let sp := stripStars pattern
  let p := scanBody false sp.2
  (sp.1, p.1, p.2)

/-- `getEsc` of Go's `filepath.Match`: one (possibly escaped) class
character; `none` is `ErrBadPattern`. -/
def getEsc : List Char → Option (Char × List Char)
  | [] => none
  | c :: cs =>
    if c = '-' ∨ c = ']' then none
    else if c = '\\' then
      match cs with
      | [] => none
      | d :: ds => if ds.isEmpty then none else some (d, ds)
    else if cs.isEmpty then none else some (c, cs)

/-- The character-class loop of Go's `matchChunk` (the `'['` case),
fuelled by the chunk length (each iteration consumes at least one
chunk character, so the fuel never runs out on the calls below). -/
def classLoopF : Nat → Char → List Char → Bool → Nat → Option (Bool × List Char)
  | 0, _, _, _, _ => none
  | fuel + 1, r, chunk, mtch, nrange =>
    if chunk.head? = some ']' ∧ 0 < nrange then some (mtch, chunk.tail)
    else
      match getEsc chunk with
      | none => none
      | some (lo, ch1) =>
        match (if ch1.head? = some '-' then getEsc ch1.tail else some (lo, ch1)) with
        | none => none
        | some (hi, ch2) => classLoopF fuel r ch2 (mtch || (lo ≤ r && r ≤ hi)) (nrange + 1)

/-- `matchChunk` of Go's `filepath.Match`, fuelled by the chunk length
(each step consumes at least one chunk character).  The `failed` flag
mirrors Go's: once set, the chunk is still scanned to completion so
that pattern syntax errors take precedence over match failure. -/
def matchChunkF : Nat → List Char → List Char → Bool → ChunkRes
  | 0, _, _, _ => .err
  | fuel + 1, chunk, s, failed0 =>
    match chunk with
    | [] => if failed0 then .fail else .ok s
    | c :: ch =>
      let failed := failed0 || s.isEmpty
      if c = '[' then
        let r := if failed then Char.ofNat 0 else s.head!
        let s1 := if failed then s else s.tail
        let ncl : Bool × List Char :=
          match ch with
          | '^' :: t => (true, t)
          | _ => (false, ch)
        match classLoopF (ncl.2.length + 1) r ncl.2 false 0 with
        | none => .err
        | some (mtch, ch2) => matchChunkF fuel ch2 s1 (failed || (mtch == ncl.1))
      else if c = '?' then
        if failed then matchChunkF fuel ch s failed
        else matchChunkF fuel ch s.tail (failed || (s.head! == '/'))
      else if c = '\\' then
        match ch with
        | [] => .err
        | d :: ch2 =>
          if failed then matchChunkF fuel ch2 s failed
          else matchChunkF fuel ch2 s.tail (failed || (s.head! != d))
      else
        if failed then matchChunkF fuel ch s failed
        else matchChunkF fuel ch s.tail (failed || (s.head! != c))

mutual

/-- The `Pattern` loop of Go's `filepath.Match`, fuelled: each
iteration consumes at least one pattern character, and each star-skip
consumes one name character, so `|pattern| + |name| + 2` fuel always
suffices.  `none` models `ErrBadPattern`. -/
def goMatchF : Nat → List Char → List Char → Option Bool
  | 0, _, _ => none
  | fuel + 1, pattern, name =>
    if pattern.isEmpty then some name.isEmpty
    else
      let sc := scanChunk pattern
      if sc.1 ∧ sc.2.1.isEmpty then some (!name.contains '/')
      else
        match matchChunkF (sc.2.1.length + 1) sc.2.1 name false with
        | .ok t =>
          if t.isEmpty ∨ ¬ sc.2.2.isEmpty then goMatchF fuel sc.2.2 t
          else if sc.1 then starLoopF fuel sc.2.1 sc.2.2 name
          else some false
        | .err => none
        | .fail =>
          if sc.1 then starLoopF fuel sc.2.1 sc.2.2 name
          else some false

/-- The star-skip loop of Go's `filepath.Match`: retry the chunk after
skipping one non-separator name character at a time, committing to the
first success. -/
def starLoopF : Nat → List Char → List Char → List Char → Option Bool
  | 0, _, _, _ => none
  | fuel + 1, chunk, rest, name =>
    match name with
    | [] => some false
    | c :: nm =>
      if c = '/' then some false
      else
        match matchChunkF (chunk.length + 1) chunk nm false with
        | .ok t =>
          if rest.isEmpty ∧ ¬ t.isEmpty then starLoopF fuel chunk rest nm
          else goMatchF fuel rest t
        | .err => none
        | .fail => starLoopF fuel chunk rest nm

end

/-- `filepath.Match(pattern, name)`: `none` is `ErrBadPattern`. -/
def goMatch (pattern name : String) : Option Bool :=
  goMatchF (pattern.toList.length + name.toList.length + 2) pattern.toList name.toList

/-- `strings.TrimSpace` (ASCII whitespace view). -/
def trimSpace (s : String) : String :=
  ⟨((s.toList.dropWhile Char.isWhitespace).reverse.dropWhile Char.isWhitespace).reverse⟩

/-- `shouldExclude` of `backup/directory.go`: for each pattern, trim
it, skip it when empty, skip it entirely (prefix check included) when
`filepath.Match` reports a bad pattern, exclude on a glob match, and
otherwise exclude when the pattern is a literal prefix of the path. -/
def shouldExclude (path : String) (patterns : List String) : Bool :=
  patterns.any (fun p0 =>
    let p := trimSpace p0
    if p = "" then false
    else
      match goMatch p path with
      | none => false
      | some true => true
      | some false => strHasPref p path)

/-- A source tree for the `CopyDirectory` walk model. -/
inductive FsTree where
  | file (name : String) : FsTree
  | dir (name : String) (children : List FsTree) : FsTree
deriving Repr

/-- Relative path of a segment list, as `filepath.Walk` produces it. -/
def joinSegs (segs : List String) : String := String.intercalate "/" segs

mutual

/-- The `filepath.Walk` body of `CopyDirectory`, on a tree whose entry
names carry no separator: entries whose relative path is excluded are
skipped, and an excluded directory returns `filepath.SkipDir`, pruning
its whole subtree; the result lists the relative paths (as segment
lists) of the entries that are copied. -/
def walkTree (excl : List String) (pre : List String) : FsTree → List (List String)
  | .file n =>
    if shouldExclude (joinSegs (pre ++ [n])) excl then [] else [pre ++ [n]]
  | .dir n cs =>
    if shouldExclude (joinSegs (pre ++ [n])) excl then []
    else (pre ++ [n]) :: walkList excl (pre ++ [n]) cs

def walkList (excl : List String) (pre : List String) : List FsTree → List (List String)
  | [] => []
  | t :: ts => walkTree excl pre t ++ walkList excl pre ts

end

mutual

theorem walkTree_anc (excl : List String) :
    ∀ (t : FsTree) (pre r : List String), r ∈ walkTree excl pre t →
      (∃ s, r = pre ++ s ∧ s ≠ []) ∧
      (∀ a s2, a ++ s2 = r → pre.length < a.length →
        shouldExclude (joinSegs a) excl = false)
  | .file n, pre, r, hr => by
    unfold walkTree at hr
    by_cases hex : shouldExclude (joinSegs (pre ++ [n])) excl = true
    · rw [if_pos hex] at hr
      simp at hr
    · rw [if_neg hex] at hr
      simp only [List.mem_singleton] at hr
      subst hr
      refine ⟨⟨[n], rfl, by simp⟩, ?_⟩
      intro a s2 ha hlen
      have hlen2 := congrArg List.length ha
      simp only [List.length_append, List.length_singleton] at hlen2
      have hs2 : s2 = [] := by
        have : s2.length = 0 := by omega
        exact List.eq_nil_of_length_eq_zero this
      subst hs2
      rw [List.append_nil] at ha
      subst ha
      exact Bool.not_eq_true _ ▸ Bool.eq_false_iff.mpr hex
  | .dir n cs, pre, r, hr => by
    unfold walkTree at hr
    by_cases hex : shouldExclude (joinSegs (pre ++ [n])) excl = true
    · rw [if_pos hex] at hr
      simp at hr
    · rw [if_neg hex] at hr
      have hexf : shouldExclude (joinSegs (pre ++ [n])) excl = false :=
        Bool.eq_false_iff.mpr hex
      rcases List.mem_cons.mp hr with rfl | hr2
      · refine ⟨⟨[n], rfl, by simp⟩, ?_⟩
        intro a s2 ha hlen
        have hlen2 := congrArg List.length ha
        simp only [List.length_append, List.length_singleton] at hlen2
        have hs2 : s2 = [] := by
          have : s2.length = 0 := by omega
          exact List.eq_nil_of_length_eq_zero this
        subst hs2
        rw [List.append_nil] at ha
        subst ha
        exact hexf
      · obtain ⟨⟨s, hs, hsne⟩, hanc⟩ := walkList_anc excl cs (pre ++ [n]) r hr2
        refine ⟨⟨[n] ++ s, by rw [hs, List.append_assoc], by simp⟩, ?_⟩
        intro a s2 ha hlen
        by_cases hlen2 : (pre ++ [n]).length < a.length
        · exact hanc a s2 ha hlen2
        · have hale : a.length = pre.length + 1 := by
            simp only [List.length_append, List.length_cons, List.length_nil] at hlen2
            omega
          have haeq : a = pre ++ [n] := by
            have h1 : (a ++ s2).take a.length = a := List.take_left a s2
            rw [ha, hs] at h1
            rw [hale] at h1
            have h2 : ((pre ++ [n]) ++ s).take (pre.length + 1) = pre ++ [n] := by
              have : (pre ++ [n]).length = pre.length + 1 := by simp
              rw [← this]
              exact List.take_left _ _
            rw [h2] at h1
            exact h1.symm
          rw [haeq]
          exact hexf

theorem walkList_anc (excl : List String) :
    ∀ (ts : List FsTree) (pre r : List String), r ∈ walkList excl pre ts →
      (∃ s, r = pre ++ s ∧ s ≠ []) ∧
      (∀ a s2, a ++ s2 = r → pre.length < a.length →
        shouldExclude (joinSegs a) excl = false)
  | [], pre, r, hr => by
    unfold walkList at hr
    simp at hr
  | t :: ts, pre, r, hr => by
    unfold walkList at hr
    rcases List.mem_append.mp hr with h1 | h2
    · exact walkTree_anc excl t pre r h1
    · exact walkList_anc excl ts pre r h2

end

/-- Per-pattern reading of one iteration of the `shouldExclude` loop. -/
theorem shouldExclude_elem_iff (path p0 : String) :
    ((fun p0 => (if trimSpace p0 = "" then false
      else match goMatch (trimSpace p0) path with
        | none => false
        | some true => true
        | some false => strHasPref (trimSpace p0) path)) p0) = true ↔
      (trimSpace p0 ≠ "" ∧
        (goMatch (trimSpace p0) path = some true ∨
          (goMatch (trimSpace p0) path = some false ∧
            strHasPref (trimSpace p0) path = true))) := by
  simp only
  by_cases he : trimSpace p0 = ""
  · rw [if_pos he]
    simp [he]
  · rw [if_neg he]
    rcases hm : goMatch (trimSpace p0) path with _ | b
    · simp [he]
    · rcases b with _ | _
      · simp [he]
      · simp [he]

/--
C9 corrected: an entry is excluded from the copy iff some non-empty
(after trimming) pattern either glob-matches the relative path
(`filepath.Match` returning true) or is well-formed and a literal
string prefix of the relative path — the exclusion is NOT glob-only;
and a pattern matching a directory prunes the entire subtree: every
non-root ancestor-or-self prefix `a` of a copied relative path is
unexcluded.
-/
theorem shouldExclude_spec (path : String) (patterns : List String) (excl : List String)
    (ts : List FsTree) (r a s2 : List String) :
    (shouldExclude path patterns = true ↔
      ∃ p0 ∈ patterns, trimSpace p0 ≠ "" ∧
        (goMatch (trimSpace p0) path = some true ∨
          (goMatch (trimSpace p0) path = some false ∧
            strHasPref (trimSpace p0) path = true))) ∧
    (r ∈ walkList excl [] ts → a ++ s2 = r → a ≠ [] →
      shouldExclude (joinSegs a) excl = false) := by
  constructor
  · unfold shouldExclude
    rw [List.any_eq_true]
    constructor
    · rintro ⟨p0, hp0, hp⟩
      exact ⟨p0, hp0, (shouldExclude_elem_iff path p0).mp hp⟩
    · rintro ⟨p0, hp0, hp⟩
      exact ⟨p0, hp0, (shouldExclude_elem_iff path p0).mpr hp⟩
  · intro hr ha hane
    refine (walkList_anc excl ts [] r hr).2 a s2 ha ?_
    simp only [List.length_nil]
    rcases a with _ | ⟨x, xs⟩
    · exact absurd rfl hane
    · simp

/--
C9 counterexample to the claim as stated: pattern `foo` does not
glob-match the relative path `foobar` (`filepath.Match` returns
false), yet `shouldExclude` excludes `foobar` — via the literal
prefix check, i.e. on a basis other than glob matching.
-/
theorem shouldExclude_not_glob_only :
    shouldExclude "foobar" ["foo"] = true ∧ goMatch "foo" "foobar" = some false := by
  constructor
  · decide
  · decide

/-- Witness for `shouldExclude_spec`: the prefix disjunct fires. -/
theorem shouldExclude_spec_witness :
    shouldExclude "foobar" ["foo"] = true :=
  (shouldExclude_spec "foobar" ["foo"] [] [] [] [] []).1.mpr
    ⟨"foo", by decide, by decide, Or.inr ⟨by decide, by decide⟩⟩

end Goback
